/-
Verification of `optimize_images.py` against its natural-language
specification.

The development shallowly embeds the script:
  * the reference rewriter (`patch_html_files`'s regex substitution) is
    modelled character-by-character (`rewriteChars`),
  * the filesystem is a finite association list from root-relative paths
    (lists of components) to file records (content + mtime),
  * the orchestrator `main` is a pure state-passing function over that
    filesystem, parametrised by an oracle for the external image codec
    (Pillow), and it records a trace of events together with the
    filesystem state right before each event.
-/
import Mathlib

/-! ### The reference rewriter

Source (`optimize_images.py`, lines 88-98):

    pattern = re.compile(
        r'(["\'])([^"\']+?)(' + "|".join(re.escape(e) for e in IMG_EXTS) + r')(["\'])',
        re.IGNORECASE
    )
    new_text = pattern.sub(
        lambda m: m.group(1) + m.group(2) + ".webp" + m.group(4),
        text
    )

The pattern is: a quote character, a lazy nonempty run of non-quote
characters, one of the literal extensions `.jpg`, `.jpeg`, `.png`
(case-insensitively; the alternation order comes from Python set
iteration order, but at any text position at most one alternative can
match, so the order is immaterial), and a quote character (any quote,
not necessarily the same as the opening one).  `re.sub` replaces the
leftmost non-overlapping matches, resuming the scan after the closing
quote of each match. -/

def isQuote (c : Char) : Bool := c = '"' || c = '\''

/-- The recognised old image extensions, as lower-case character lists
(`IMG_EXTS = {".jpg", ".jpeg", ".png"}`, line 28 of the source). -/
def extsData : List (List Char) := [".jpg".data, ".jpeg".data, ".png".data]

/-- The canonical replacement extension emitted by the rewriter. -/
def webpData : List Char := ".webp".data

/-- Strip a case-insensitive occurrence of the (lower-case) literal `pat`
from the front of `cs`, returning the actual characters consumed and the
rest. -/
def stripCI : List Char → List Char → Option (List Char × List Char)
  | [], cs => some ([], cs)
  | _ :: _, [] => none
  | p :: ps, c :: cs =>
      if c.toLower = p then
        match stripCI ps cs with
        | some (m, r) => some (c :: m, r)
        | none => none
      else none

/-- Try to read one extension alternative followed by a quote character:
returns the consumed extension characters, the closing quote and the
rest. -/
def tryOne (pat : List Char) (cs : List Char) : Option (List Char × Char × List Char) :=
  match stripCI pat cs with
  | some (m, q2 :: rest) => if isQuote q2 then some (m, q2, rest) else none
  | _ => none

/-- Try the three extension alternatives (the alternation of the compiled
pattern).  At most one alternative can match at a given position (their
literals are pairwise incompatible), so trying them in sequence is
faithful to the regex engine's backtracking. -/
def tryExtQuote (cs : List Char) : Option (List Char × Char × List Char) :=
  match tryOne ".jpg".data cs with
  | some r => some r
  | none =>
    match tryOne ".jpeg".data cs with
    | some r => some r
    | none => tryOne ".png".data cs

/-- The lazy body of the pattern: given the text following an opening
quote, find the shortest nonempty run of non-quote characters followed
by an extension alternative and a closing quote.  Returns
`(body, ext, closing quote, rest)`. -/
def scanBody : List Char → Option (List Char × List Char × Char × List Char)
  | [] => none
  | c :: cs =>
      if isQuote c then none
      else
        match tryExtQuote cs with
        | some (e, q2, rest) => some ([c], e, q2, rest)
        | none =>
          match scanBody cs with
          | some (b, e, q2, rest) => some (c :: b, e, q2, rest)
          | none => none

/-- Fuel-indexed scanner for the substitution; `fuel ≥ length of the
text` makes the fuel irrelevant (`rewriteF_fuel`).  The fuel only makes
the recursion structural so that concrete instances evaluate. -/
def rewriteF : Nat → List Char → List Char
  | 0, cs => cs
  | _ + 1, [] => []
  | fuel + 1, c :: cs =>
      if isQuote c then
        match scanBody cs with
        | some (b, _e, q2, rest) => c :: (b ++ webpData ++ q2 :: rewriteF fuel rest)
        | none => c :: rewriteF fuel cs
      else c :: rewriteF fuel cs

/-- The substitution itself: scan left to right; at a quote character try
to complete a match (`scanBody`); on success emit
`quote ++ body ++ ".webp" ++ closing quote` and resume after the closing
quote, otherwise keep the character and continue.  This is `pattern.sub`
with the replacement `m.group(1) + m.group(2) + ".webp" + m.group(4)`. -/
def rewriteChars (cs : List Char) : List Char := rewriteF cs.length cs

/-- Modelled from the spec: the matched shape the specification
describes for the rewriter, with a closing quote that must *match* the
opening quote ("a quote character, followed by a non-quote path body,
followed by one of the old recognized image extensions
(case-insensitive), followed by a matching quote character").  The body
scan is as for `scanBody`, but a candidate whose closing quote differs
from the opening quote `q` is not a match (the specification's
backreference fails) and the lazy body keeps extending. -/
def scanBodyMatching (q : Char) : List Char → Option (List Char × List Char × Char × List Char)
  | [] => none
  | c :: cs =>
      if isQuote c then none
      else
        match tryExtQuote cs with
        | some (e, q2, rest) =>
            if q2 = q then some ([c], e, q2, rest)
            else
              match scanBodyMatching q cs with
              | some (b, e', q2', rest') => some (c :: b, e', q2', rest')
              | none => none
        | none =>
          match scanBodyMatching q cs with
          | some (b, e, q2, rest) => some (c :: b, e, q2, rest)
          | none => none

/-- Modelled from the spec: fuel-indexed substitution using the
matching-quote shape of the specification. -/
def rewriteMatchingF : Nat → List Char → List Char
  | 0, cs => cs
  | _ + 1, [] => []
  | fuel + 1, c :: cs =>
      if isQuote c then
        match scanBodyMatching c cs with
        | some (b, _e, q2, rest) => c :: (b ++ webpData ++ q2 :: rewriteMatchingF fuel rest)
        | none => c :: rewriteMatchingF fuel cs
      else c :: rewriteMatchingF fuel cs

/-- Modelled from the spec: the rewriter as the specification describes
it, in which the closing quote must match the opening quote.  Used only
to compare against the code's `rewriteChars`. -/
def rewriteMatchingSpec (cs : List Char) : List Char := rewriteMatchingF cs.length cs

/-- The condition of the no-spurious-write property: the text contains a
quoted substring ending in a recognised old image extension — a quote
character, a nonempty non-quote body, an old extension
(case-insensitively) and a quote character. -/
def HasQuotedOldExt (t : List Char) : Prop :=
  ∃ u : List Char, ∃ q : Char, ∃ b e : List Char, ∃ q2 : Char, ∃ v : List Char,
    t = u ++ q :: (b ++ e ++ q2 :: v) ∧ isQuote q = true ∧ b ≠ [] ∧
    (∀ c ∈ b, isQuote c = false) ∧ e.map Char.toLower ∈ extsData ∧ isQuote q2 = true

/-- Executable check equivalent to `HasQuotedOldExt`
(`hasQuotedOldExt_iff`). -/
def containsQuotedOldExt : List Char → Bool
  | [] => false
  | c :: cs => (isQuote c && (scanBody cs).isSome) || containsQuotedOldExt cs

/-! ### Paths and path helpers

Root-relative paths are lists of components, as produced by
`path.relative_to(ROOT).parts`. -/

abbrev FsPath := List String

/-- `BACKUP_DIR = "backup_images"` (line 27). -/
def BACKUP_DIR : String := "backup_images"

/-- `IMG_EXTS = {".jpg", ".jpeg", ".png"}` (line 28), as a list (set
iteration order is irrelevant to every use). -/
def IMG_EXTS : List String := [".jpg", ".jpeg", ".png"]

/-- `SKIP_DIRS = {BACKUP_DIR, ".git", "node_modules", "__pycache__"}`
(line 29). -/
def SKIP_DIRS : List String := [BACKUP_DIR, ".git", "node_modules", "__pycache__"]

/-- Index of the last occurrence of `c` in `cs` (`str.rfind`). -/
def rfindIdx (c : Char) : List Char → Option Nat
  | [] => none
  | x :: xs =>
      match rfindIdx c xs with
      | some i => some (i + 1)
      | none => if x = c then some 0 else none

/-- The final component of a path (`Path.name`; `""` for the empty
path). -/
def path_name (p : FsPath) : String := p.getLastD ""

/-- `Path.suffix` of a file name, following `pathlib`: the part of the
name from its last dot, provided that dot is neither the first nor the
last character; otherwise `""`. -/
def path_suffix (name : String) : String :=
  match rfindIdx '.' name.data with
  | some i => if 0 < i ∧ i < name.data.length - 1 then ⟨name.data.drop i⟩ else ""
  | none => ""

/-- `str.lower()` (the source only lowercases ASCII extensions). -/
def lowerStr (s : String) : String := ⟨s.data.map Char.toLower⟩

/-- `Path.with_suffix`: replace the suffix of the final component
(`convert_to_webp` uses `src.with_suffix(".webp")`, line 73). -/
def with_suffix (p : FsPath) (ext : String) : FsPath :=
  let name := path_name p
  let stem : String := ⟨name.data.take (name.data.length - (path_suffix name).data.length)⟩
  p.dropLast ++ [stem ++ ext]

/-- `str(p.relative_to(ROOT)).replace("\\", "/")` (lines 140-141): the
root-relative path joined with `/`. -/
def relStr : FsPath → String
  | [] => ""
  | [c] => c
  | c :: rest => c ++ "/" ++ relStr rest

/-- `should_skip` (lines 42-44): true iff some component of the
root-relative path is in `SKIP_DIRS`. -/
def should_skip (p : FsPath) : Bool := p.any (fun part => decide (part ∈ SKIP_DIRS))

/-- Whether a path qualifies as an image for `find_images`:
`p.suffix.lower() in IMG_EXTS` (line 50). -/
def is_image_path (p : FsPath) : Bool :=
  decide (lowerStr (path_suffix (path_name p)) ∈ IMG_EXTS)

/-- Whether a path is yielded by `ROOT.rglob("*.html")` (line 57): its
name ends with the literal `.html`. -/
def matches_html_glob (p : FsPath) : Bool := ".html".data.isSuffixOf (path_name p).data

/-! ### The filesystem model

A filesystem is an association list from root-relative paths to file
records (content and modification time).  Directories are left
implicit: `mkdir(parents=True, exist_ok=True)` never fails and the
claims never observe directories.  File content is the byte string of
the file, represented as a character list so that markup text and the
rewriter act on it directly. -/

structure File where
  data : List Char
  mtime : Nat
deriving DecidableEq, Repr

abbrev FS := List (FsPath × File)

def fsLookup : FS → FsPath → Option File
  | [], _ => none
  | e :: fs, p => if e.1 = p then some e.2 else fsLookup fs p

/-- Removing a path (`Path.unlink`). -/
def fsErase (fs : FS) (p : FsPath) : FS := fs.filter (fun e => decide (e.1 ≠ p))

/-- Writing a path (create or overwrite). -/
def fsInsert (fs : FS) (p : FsPath) (f : File) : FS := (p, f) :: fsErase fs p

/-! ### Locators, backup, HTML patching (lines 47-101) -/

/-- `find_images` (lines 47-52): every file whose lower-cased suffix is
in `IMG_EXTS` and whose root-relative path is not skipped.  Enumeration
order is the order of the association list (one filesystem snapshot). -/
def find_images (fs : FS) : List FsPath :=
  (fs.filter (fun e => is_image_path e.1 && !should_skip e.1)).map Prod.fst

/-- `find_html_files` (lines 55-60): every path matched by
`rglob("*.html")` whose root-relative path is not skipped. -/
def find_html_files (fs : FS) : List FsPath :=
  (fs.filter (fun e => matches_html_glob e.1 && !should_skip e.1)).map Prod.fst

/-- `backup` (lines 63-68): copy `src` to `ROOT/BACKUP_DIR/rel` unless
that destination already exists.  `copy2` preserves the content and the
modification time, so the destination receives the source's record
unchanged.  (`copy2` on a missing source would raise; the orchestrator
only passes paths it just enumerated, and the model leaves the
filesystem unchanged in that vacuous case.) -/
def backup (fs : FS) (src : FsPath) : FS :=
  let dst := BACKUP_DIR :: src
  if (fsLookup fs dst).isSome then fs
  else
    match fsLookup fs src with
    | some f => fsInsert fs dst f
    | none => fs

/-- `patch_html_files` (lines 82-101): rewrite each listed markup file
with the extension substitution; write the file back (with a fresh
mtime `tnew`) only when the text changed.  The `renamed` map is received
but never consulted by the substitution, exactly as in the source. -/
def patch_html_files (fs : FS) (html_files : List FsPath)
    (renamed : List (String × String)) (tnew : Nat) : FS :=
  html_files.foldl
    (fun acc p =>
      match fsLookup acc p with
      | some f =>
          let new_text := rewriteChars f.data
          if new_text ≠ f.data then fsInsert acc p ⟨new_text, tnew⟩ else acc
      | none => acc)
    fs

/-! ### The orchestrator (`main`, lines 105-162)

Events record what `main` does to the tree, each paired with the
filesystem state immediately before the event takes effect.  The
external codec is an oracle `encode : List Char → Option (List Char)`;
`none` models `convert_to_webp` raising (corrupt input), which is the
one error `main` catches (lines 124-128).  Errors outside that `try`
block abort the whole run: in the model these are a missing source file
at `stat` and the `ZeroDivisionError` in the savings computation
`(1 - size_after / size_before) * 100` (line 131) when the original has
size 0. -/

inductive Ev where
  | evBackup (src : FsPath)
  | evConvertFail (src : FsPath)
  | evWriteWebp (src dst : FsPath)
  | evUnlink (src : FsPath)
deriving DecidableEq, Repr

/-- The per-image source path an event concerns. -/
def Ev.src : Ev → FsPath
  | evBackup s => s
  | evConvertFail s => s
  | evWriteWebp s _ => s
  | evUnlink s => s

inductive RunError where
  | missingFile
  | zeroDiv
deriving DecidableEq, Repr

structure LoopSt where
  fs : FS
  total_before : Nat
  total_after : Nat
  renamed : List (String × String)
  trace : List (FS × Ev)
deriving DecidableEq, Repr

/-- One iteration of the `for src in images` loop (lines 117-147), in
source order: `stat` the original, `backup`, attempt the conversion
(recoverable failure), `stat` the result, compute the saving (division
by `size_before`!), accumulate totals, `unlink` the original, record the
rename. -/
def processOne (encode : List Char → Option (List Char)) (tnew : Nat)
    (st : LoopSt) (src : FsPath) : Except (RunError × LoopSt) LoopSt :=
  match fsLookup st.fs src with
  | none => .error (.missingFile, st)
  | some f =>
      let size_before := f.data.length
      let fs1 := backup st.fs src
      let tr1 := st.trace ++ [(st.fs, Ev.evBackup src)]
      match encode f.data with
      | none =>
          .ok { st with fs := fs1, trace := tr1 ++ [(fs1, Ev.evConvertFail src)] }
      | some out =>
          let dst := with_suffix src ".webp"
          let fs2 := fsInsert fs1 dst ⟨out, tnew⟩
          let tr2 := tr1 ++ [(fs1, Ev.evWriteWebp src dst)]
          let size_after := out.length
          if size_before = 0 then
            .error (.zeroDiv, { st with fs := fs2, trace := tr2 })
          else
            .ok { fs := fsErase fs2 src
                  total_before := st.total_before + size_before
                  total_after := st.total_after + size_after
                  renamed := st.renamed ++ [(relStr src, relStr dst)]
                  trace := tr2 ++ [(fs2, Ev.evUnlink src)] }

/-- The whole image loop.  An uncaught exception aborts the remaining
iterations; the partial state (and trace) at the abort is kept. -/
def runLoop (encode : List Char → Option (List Char)) (tnew : Nat) :
    LoopSt → List FsPath → LoopSt × Option RunError
  | st, [] => (st, none)
  | st, src :: rest =>
      match processOne encode tnew st src with
      | .error (e, st') => (st', some e)
      | .ok st' => runLoop encode tnew st' rest

structure RunResult where
  fs : FS
  renamed : List (String × String)
  total_before : Nat
  total_after : Nat
  nothing_to_do : Bool
deriving DecidableEq, Repr

/-- `main` (lines 105-162; named `runMain` here because `main` is
reserved): enumerate images; if none, report "nothing to do" and stop;
otherwise process each image, then enumerate markup files and patch
them when both markup files and at least one rename exist. -/
def runMain (fs0 : FS) (encode : List Char → Option (List Char)) (tnew : Nat) :
    List (FS × Ev) × Except RunError RunResult :=
  let images := find_images fs0
  if images = [] then
    ([], .ok ⟨fs0, [], 0, 0, true⟩)
  else
    match runLoop encode tnew ⟨fs0, 0, 0, [], []⟩ images with
    | (st, some e) => (st.trace, .error e)
    | (st, none) =>
        let html_files := find_html_files st.fs
        let fs' :=
          if html_files ≠ [] ∧ st.renamed ≠ [] then
            patch_html_files st.fs html_files st.renamed tnew
          else st.fs
        (st.trace, .ok ⟨fs', st.renamed, st.total_before, st.total_after, false⟩)

/-! ### Observation helpers used in theorem statements -/

/-- The sub-list of `l` whose images the codec oracle converts
successfully (in `fs0`). -/
def succImgs (fs0 : FS) (encode : List Char → Option (List Char)) (l : List FsPath) :
    List FsPath :=
  l.filter (fun p =>
    match fsLookup fs0 p with
    | some f => (encode f.data).isSome
    | none => false)

/-- Sum of the original sizes of the listed files. -/
def sizesBefore (fs0 : FS) (l : List FsPath) : Nat :=
  (l.map (fun p =>
    match fsLookup fs0 p with
    | some f => f.data.length
    | none => 0)).sum

/-- Sum of the converted sizes of the listed files. -/
def sizesAfter (fs0 : FS) (encode : List Char → Option (List Char)) (l : List FsPath) : Nat :=
  (l.map (fun p =>
    match fsLookup fs0 p with
    | some f =>
        match encode f.data with
        | some out => out.length
        | none => 0
    | none => 0)).sum

/-- Every enumerated image is present and has nonzero size (this rules
out the uncaught `ZeroDivisionError` of line 131). -/
def sizes_ok (fs : FS) : Bool :=
  (find_images fs).all (fun p =>
    match fsLookup fs p with
    | some f => !f.data.isEmpty
    | none => false)

/-! ### Lemmas about the rewriter -/

theorem stripCI_sound : ∀ {pat cs m r}, stripCI pat cs = some (m, r) →
    cs = m ++ r ∧ m.map Char.toLower = pat := by
  intro pat
  induction pat with
  | nil => intro cs m r h; simp_all [stripCI]
  | cons p ps ih =>
    intro cs m r h
    cases cs with
    | nil => simp [stripCI] at h
    | cons c cs =>
      simp only [stripCI] at h
      split at h
      · rename_i hlow
        cases hm : stripCI ps cs with
        | none => rw [hm] at h; exact absurd h (by simp)
        | some mr =>
          obtain ⟨m', r'⟩ := mr
          rw [hm] at h
          simp only [Option.some.injEq, Prod.mk.injEq] at h
          obtain ⟨h1, h2⟩ := h
          subst h1; subst h2
          obtain ⟨hcs, hmap⟩ := ih hm
          subst hcs
          simp [hmap, hlow]
      · exact absurd h (by simp)

theorem stripCI_complete : ∀ {pat m : List Char}, m.map Char.toLower = pat →
    ∀ r, stripCI pat (m ++ r) = some (m, r) := by
  intro pat m
  induction m generalizing pat with
  | nil => intro hm r; subst hm; simp [stripCI]
  | cons c cs ih =>
    intro hm r
    subst hm
    simp [stripCI, ih rfl]

theorem tryOne_sound {pat cs m q2 r} (h : tryOne pat cs = some (m, q2, r)) :
    cs = m ++ q2 :: r ∧ m.map Char.toLower = pat ∧ isQuote q2 = true := by
  unfold tryOne at h
  cases hs : stripCI pat cs with
  | none => rw [hs] at h; simp at h
  | some mr =>
    rw [hs] at h
    obtain ⟨m', r'⟩ := mr
    cases r' with
    | nil => simp at h
    | cons q' rest =>
      simp only at h
      split at h
      · rename_i hq
        simp only [Option.some.injEq, Prod.mk.injEq] at h
        obtain ⟨h1, h2, h3⟩ := h
        subst h1; subst h2; subst h3
        obtain ⟨hcs, hmap⟩ := stripCI_sound hs
        exact ⟨hcs, hmap, hq⟩
      · exact absurd h (by simp)

theorem tryExtQuote_sound {cs e q2 r} (h : tryExtQuote cs = some (e, q2, r)) :
    cs = e ++ q2 :: r ∧ e.map Char.toLower ∈ extsData ∧ isQuote q2 = true := by
  unfold tryExtQuote at h
  cases h1 : tryOne ".jpg".data cs with
  | some res1 =>
    simp only [h1, Option.some.injEq] at h
    subst h
    obtain ⟨a, b', c'⟩ := tryOne_sound h1
    exact ⟨a, by rw [b']; simp [extsData], c'⟩
  | none =>
    simp only [h1] at h
    cases h2 : tryOne ".jpeg".data cs with
    | some res2 =>
      simp only [h2, Option.some.injEq] at h
      subst h
      obtain ⟨a, b', c'⟩ := tryOne_sound h2
      exact ⟨a, by rw [b']; simp [extsData], c'⟩
    | none =>
      simp only [h2] at h
      obtain ⟨a, b', c'⟩ := tryOne_sound h
      exact ⟨a, by rw [b']; simp [extsData], c'⟩

theorem scanBody_sound : ∀ {cs b e q2 r}, scanBody cs = some (b, e, q2, r) →
    cs = b ++ e ++ q2 :: r ∧ b ≠ [] ∧ (∀ c ∈ b, isQuote c = false) ∧
      e.map Char.toLower ∈ extsData ∧ isQuote q2 = true := by
  intro cs
  induction cs with
  | nil => intro b e q2 r h; simp [scanBody] at h
  | cons c cs ih =>
    intro b e q2 r h
    simp only [scanBody] at h
    split at h
    · exact absurd h (by simp)
    · rename_i hq
      cases ht : tryExtQuote cs with
      | some res =>
        rw [ht] at h
        obtain ⟨e', q2', r'⟩ := res
        obtain ⟨a, hext, hq2⟩ := tryExtQuote_sound ht
        simp only [Option.some.injEq, Prod.mk.injEq] at h
        obtain ⟨h1, h2, h3, h4⟩ := h
        refine ⟨?_, ?_, ?_, ?_, ?_⟩
        · rw [← h1, ← h2, ← h3, ← h4]; simp [a]
        · rw [← h1]; simp
        · intro x hx
          rw [← h1] at hx
          simp at hx
          subst hx
          simpa using hq
        · rw [← h2]; exact hext
        · rw [← h3]; exact hq2
      | none =>
        rw [ht] at h
        cases hs : scanBody cs with
        | none => rw [hs] at h; exact absurd h (by simp)
        | some res =>
          rw [hs] at h
          obtain ⟨b', e', q2', r'⟩ := res
          obtain ⟨hcs, hb, hall, hext, hq2⟩ := ih hs
          simp only [Option.some.injEq, Prod.mk.injEq] at h
          obtain ⟨h1, h2, h3, h4⟩ := h
          refine ⟨?_, ?_, ?_, ?_, ?_⟩
          · rw [← h1, ← h2, ← h3, ← h4]; simp [hcs]
          · rw [← h1]; simp
          · intro x hx
            rw [← h1] at hx
            simp at hx
            rcases hx with hx | hx
            · subst hx; simpa using hq
            · exact hall x hx
          · rw [← h2]; exact hext
          · rw [← h3]; exact hq2

theorem scanBody_rest_length {cs b e q2 r} (h : scanBody cs = some (b, e, q2, r)) :
    r.length < cs.length := by
  obtain ⟨hcs, hb, -, -, -⟩ := scanBody_sound h
  subst hcs
  have : 1 ≤ b.length := by
    cases b with
    | nil => exact absurd rfl hb
    | cons x xs => simp
  simp [List.length_append]
  omega

theorem rewriteF_fuel : ∀ {n : Nat} {f g : Nat} {cs : List Char}, cs.length ≤ n →
    cs.length ≤ f → cs.length ≤ g → rewriteF f cs = rewriteF g cs := by
  intro n
  induction n with
  | zero =>
    intro f g cs hn _ _
    have : cs = [] := List.length_eq_zero.mp (Nat.le_zero.mp hn)
    subst this
    cases f <;> cases g <;> simp [rewriteF]
  | succ n ih =>
    intro f g cs hn hf hg
    cases cs with
    | nil => cases f <;> cases g <;> simp [rewriteF]
    | cons c cs =>
      obtain ⟨f', rfl⟩ : ∃ f', f = f' + 1 := ⟨f - 1, by simp at hf; omega⟩
      obtain ⟨g', rfl⟩ : ∃ g', g = g' + 1 := ⟨g - 1, by simp at hg; omega⟩
      simp only [List.length_cons] at hn hf hg
      have hcs : ∀ ds : List Char, ds.length ≤ cs.length →
          rewriteF f' ds = rewriteF g' ds := by
        intro ds hds
        exact @ih f' g' ds (by omega) (by omega) (by omega)
      simp only [rewriteF]
      split
      · cases hs : scanBody cs with
        | some res =>
          obtain ⟨b, e, q2, rest⟩ := res
          have hlt := scanBody_rest_length hs
          have := hcs rest (by omega)
          simp [this]
        | none =>
          have := hcs cs (by omega)
          simp [this]
      · have := hcs cs (by omega)
        simp [this]

/-- Unfolding equation for `rewriteChars` on a cons cell. -/
theorem rewriteChars_cons (c : Char) (cs : List Char) :
    rewriteChars (c :: cs) =
      if isQuote c then
        match scanBody cs with
        | some (b, _e, q2, rest) => c :: (b ++ webpData ++ q2 :: rewriteChars rest)
        | none => c :: rewriteChars cs
      else c :: rewriteChars cs := by
  show rewriteF (cs.length + 1) (c :: cs) = _
  simp only [rewriteF]
  split
  · cases hs : scanBody cs with
    | some res =>
      obtain ⟨b, e, q2, rest⟩ := res
      have hlt := scanBody_rest_length hs
      have : rewriteF cs.length rest = rewriteF rest.length rest :=
        rewriteF_fuel (n := cs.length) (by omega) (by omega) (by omega)
      simp [rewriteChars, this]
    | none => simp [rewriteChars]
  · simp [rewriteChars]

theorem rewriteChars_nil : rewriteChars [] = [] := rfl

/-! ### Lemmas about the filesystem model and the locators -/

theorem fsLookup_erase (fs : FS) (p : FsPath) (q : FsPath) :
    fsLookup (fsErase fs p) q = if p = q then none else fsLookup fs q := by
  induction fs with
  | nil => simp [fsErase, fsLookup]
  | cons e fs ih =>
    simp only [fsErase, List.filter_cons] at ih ⊢
    by_cases he : e.1 = p
    · rw [if_neg (by simp [he])]
      rw [ih]
      by_cases hpq : p = q
      · simp [hpq]
      · simp only [if_neg hpq, fsLookup]
        rw [if_neg (by rw [he]; exact fun h => hpq h)]
    · rw [if_pos (by simp [he])]
      simp only [fsLookup]
      by_cases heq : e.1 = q
      · rw [if_pos heq, if_pos heq]
        rw [if_neg (by intro h; subst h; exact he heq)]
      · rw [if_neg heq, if_neg heq, ih]

theorem fsLookup_insert (fs : FS) (p : FsPath) (f : File) (q : FsPath) :
    fsLookup (fsInsert fs p f) q = if p = q then some f else fsLookup fs q := by
  simp only [fsInsert, fsLookup]
  by_cases hpq : p = q
  · simp [hpq]
  · rw [if_neg hpq, if_neg hpq, fsLookup_erase, if_neg hpq]

theorem fsLookup_isSome_of_mem {fs : FS} {p : FsPath} {f : File} (h : (p, f) ∈ fs) :
    (fsLookup fs p).isSome = true := by
  induction fs with
  | nil => simp at h
  | cons e fs ih =>
    simp only [fsLookup]
    by_cases he : e.1 = p
    · simp [he]
    · rw [if_neg he]
      rcases List.mem_cons.mp h with h | h
      · exact absurd (congrArg Prod.fst h.symm) he
      · exact ih h

theorem fsLookup_some_of_mem_nodup {fs : FS} {p : FsPath} {f : File}
    (hnd : (fs.map Prod.fst).Nodup) (h : (p, f) ∈ fs) : fsLookup fs p = some f := by
  induction fs with
  | nil => simp at h
  | cons e fs ih =>
    simp only [List.map_cons, List.nodup_cons] at hnd
    rcases List.mem_cons.mp h with h | h
    · subst h
      simp [fsLookup]
    · have hne : e.1 ≠ p := by
        intro he
        exact hnd.1 (he ▸ (List.mem_map.mpr ⟨(p, f), h, rfl⟩))
      simp only [fsLookup, if_neg hne]
      exact ih hnd.2 h

theorem mem_find_images {fs : FS} {p : FsPath} :
    p ∈ find_images fs ↔
      (∃ f, (p, f) ∈ fs) ∧ is_image_path p = true ∧ should_skip p = false := by
  unfold find_images
  constructor
  · intro h
    obtain ⟨e, he, rfl⟩ := List.mem_map.mp h
    have := List.mem_filter.mp he
    obtain ⟨hmem, hcond⟩ := this
    simp only [Bool.and_eq_true, Bool.not_eq_true'] at hcond
    exact ⟨⟨e.2, hmem⟩, hcond.1, hcond.2⟩
  · intro ⟨⟨f, hmem⟩, himg, hskip⟩
    exact List.mem_map.mpr ⟨(p, f),
      List.mem_filter.mpr ⟨hmem, by simp [himg, hskip]⟩, rfl⟩

theorem mem_find_html_files {fs : FS} {p : FsPath} :
    p ∈ find_html_files fs ↔
      (∃ f, (p, f) ∈ fs) ∧ matches_html_glob p = true ∧ should_skip p = false := by
  unfold find_html_files
  constructor
  · intro h
    obtain ⟨e, he, rfl⟩ := List.mem_map.mp h
    have := List.mem_filter.mp he
    obtain ⟨hmem, hcond⟩ := this
    simp only [Bool.and_eq_true, Bool.not_eq_true'] at hcond
    exact ⟨⟨e.2, hmem⟩, hcond.1, hcond.2⟩
  · intro ⟨⟨f, hmem⟩, hglob, hskip⟩
    exact List.mem_map.mpr ⟨(p, f),
      List.mem_filter.mpr ⟨hmem, by simp [hglob, hskip]⟩, rfl⟩

theorem find_images_nodup {fs : FS} (hnd : (fs.map Prod.fst).Nodup) :
    (find_images fs).Nodup :=
  ((List.filter_sublist fs).map Prod.fst).nodup hnd

/-! ### Lemmas about paths -/

theorem rfindIdx_none_iff {c : Char} : ∀ {l : List Char}, rfindIdx c l = none ↔ c ∉ l := by
  intro l
  induction l with
  | nil => simp [rfindIdx]
  | cons x xs ih =>
    simp only [rfindIdx, List.mem_cons]
    cases hx : rfindIdx c xs with
    | some i =>
      simp only [hx]
      constructor
      · intro h; exact absurd h (by simp)
      · intro h
        have hnx : c ∉ xs := fun hc => h (Or.inr hc)
        rw [ih.mpr hnx] at hx
        exact absurd hx (by simp)
    | none =>
      simp only [hx]
      constructor
      · intro h
        split at h
        · exact absurd h (by simp)
        · rename_i hne
          rintro (hm | hm)
          · exact hne hm.symm
          · exact (ih.mp hx) hm
      · intro h
        rw [if_neg (fun he : x = c => h (Or.inl he.symm))]

theorem rfindIdx_append_last {c : Char} {ys : List Char} (hys : c ∉ ys) :
    ∀ xs : List Char, rfindIdx c (xs ++ c :: ys) = some xs.length := by
  intro xs
  induction xs with
  | nil =>
    simp only [List.nil_append, rfindIdx]
    rw [rfindIdx_none_iff.mpr hys]
    simp
  | cons x xs ih =>
    have hstep : rfindIdx c ((x :: xs) ++ c :: ys) =
        match rfindIdx c (xs ++ c :: ys) with
        | some i => some (i + 1)
        | none => if x = c then some 0 else none := rfl
    rw [hstep, ih]
    rfl

/-- `path_suffix` of a name whose data splits at its final dot. -/
theorem path_suffix_concat {name : String} {pre tail : List Char}
    (hdata : name.data = pre ++ '.' :: tail) (hdot : '.' ∉ tail) :
    path_suffix name = if 0 < pre.length ∧ tail ≠ [] then (⟨'.' :: tail⟩ : String) else "" := by
  unfold path_suffix
  simp only [hdata, rfindIdx_append_last hdot]
  have h2 : (pre ++ '.' :: tail).length - 1 = pre.length + tail.length := by
    simp [List.length_append]
  have h3 : (pre ++ '.' :: tail).drop pre.length = '.' :: tail := List.drop_left pre ('.' :: tail)
  rw [h2, h3]
  by_cases hc : 0 < pre.length ∧ tail ≠ []
  · have hA : 0 < pre.length ∧ pre.length < pre.length + tail.length :=
      ⟨hc.1, by have := List.length_pos.mpr hc.2; omega⟩
    rw [if_pos hA, if_pos hc]
  · have hA : ¬(0 < pre.length ∧ pre.length < pre.length + tail.length) := by
      intro hA
      apply hc
      refine ⟨hA.1, ?_⟩
      intro ht
      rw [ht] at hA
      simp at hA
    rw [if_neg hA, if_neg hc]

theorem path_suffix_inv {name : String} (h : path_suffix name ≠ "") :
    ∃ i, rfindIdx '.' name.data = some i ∧ 0 < i ∧ i < name.data.length - 1 ∧
      (path_suffix name).data = name.data.drop i := by
  unfold path_suffix at h
  cases hr : rfindIdx '.' name.data with
  | none =>
    simp only [hr] at h
    exact absurd rfl h
  | some i =>
    simp only [hr] at h
    by_cases hc : 0 < i ∧ i < name.data.length - 1
    · refine ⟨i, rfl, hc.1, hc.2, ?_⟩
      unfold path_suffix
      simp only [hr]
      rw [if_pos hc]
    · rw [if_neg hc] at h
      exact absurd rfl h

theorem is_image_suffix_ne {p : FsPath} (h : is_image_path p = true) :
    path_suffix (path_name p) ≠ "" := by
  intro he
  unfold is_image_path at h
  rw [he] at h
  exact absurd (of_decide_eq_true h) (by decide)

/-- The final component of `with_suffix p ext` is the stem of `p`'s name
followed by `ext`. -/
theorem path_name_with_suffix (p : FsPath) (ext : String) :
    path_name (with_suffix p ext) =
      (⟨(path_name p).data.take
          ((path_name p).data.length - (path_suffix (path_name p)).data.length)⟩ : String)
        ++ ext := by
  unfold with_suffix path_name
  rw [List.getLastD_concat]

theorem path_suffix_with_webp {p : FsPath} (h : path_suffix (path_name p) ≠ "") :
    path_suffix (path_name (with_suffix p ".webp")) = ".webp" := by
  obtain ⟨i, hfind, hpos, hlt, hdrop⟩ := path_suffix_inv h
  have hilen : i ≤ (path_name p).data.length := by omega
  have hstemlen : (path_name p).data.length - (path_suffix (path_name p)).data.length = i := by
    rw [hdrop, List.length_drop]
    omega
  rw [path_name_with_suffix, hstemlen]
  have hdata : ((⟨(path_name p).data.take i⟩ : String) ++ ".webp").data =
      (path_name p).data.take i ++ '.' :: "webp".data := by
    rw [String.data_append]
  rw [path_suffix_concat hdata (by decide)]
  rw [if_pos ⟨by rw [List.length_take]; omega, by decide⟩]

theorem is_image_with_webp_false {p : FsPath} (h : is_image_path p = true) :
    is_image_path (with_suffix p ".webp") = false := by
  unfold is_image_path
  rw [path_suffix_with_webp (is_image_suffix_ne h)]
  decide

theorem ne_with_webp_of_images {p q : FsPath} (hp : is_image_path p = true)
    (hq : is_image_path q = true) : p ≠ with_suffix q ".webp" := by
  intro he
  rw [he] at hp
  rw [is_image_with_webp_false hq] at hp
  exact Bool.noConfusion hp

theorem should_skip_backup (p : FsPath) : should_skip (BACKUP_DIR :: p) = true := by
  simp only [should_skip, List.any_cons, Bool.or_eq_true, decide_eq_true_eq]
  exact Or.inl (by simp [SKIP_DIRS])

theorem ne_backup_of_not_skip {p : FsPath} (h : should_skip p = false) (q : FsPath) :
    p ≠ BACKUP_DIR :: q := by
  intro he
  rw [he, should_skip_backup] at h
  exact Bool.noConfusion h

theorem webp_append_ne_skip (stem : String) {d : String} (hd : d ∈ SKIP_DIRS) :
    stem ++ ".webp" ≠ d := by
  intro he
  have hdata : stem.data ++ ".webp".data = d.data := by
    rw [← String.data_append, he]
  have hlast : (stem.data ++ ".webp".data).getLast? = some 'p' := by
    rw [List.getLast?_append]
    have hw : ".webp".data.getLast? = some 'p' := by decide
    rw [hw]
    rfl
  rw [hdata] at hlast
  fin_cases hd <;> exact absurd hlast (by decide)

theorem should_skip_with_webp {p : FsPath} (h : should_skip p = false) :
    should_skip (with_suffix p ".webp") = false := by
  have hws : with_suffix p ".webp" = p.dropLast ++
      [(⟨(path_name p).data.take
          ((path_name p).data.length - (path_suffix (path_name p)).data.length)⟩ : String)
        ++ ".webp"] := rfl
  rw [hws]
  unfold should_skip at h ⊢
  rw [List.any_eq_false] at h ⊢
  intro part hpart
  rcases List.mem_append.mp hpart with hm | hm
  · exact h part (List.mem_of_mem_dropLast hm)
  · simp only [List.mem_singleton] at hm
    subst hm
    simp only [decide_eq_true_eq]
    intro hmem
    exact webp_append_ne_skip _ hmem rfl

theorem matches_html_glob_split {p : FsPath} (h : matches_html_glob p = true) :
    ∃ pre, (path_name p).data = pre ++ ".html".data := by
  unfold matches_html_glob at h
  obtain ⟨t, ht⟩ := List.isSuffixOf_iff_suffix.mp h
  exact ⟨t, ht.symm⟩

theorem html_not_image {p : FsPath} (h : matches_html_glob p = true) :
    is_image_path p = false := by
  obtain ⟨pre, hname⟩ := matches_html_glob_split h
  have hsplit : (path_name p).data = pre ++ '.' :: "html".data := hname
  have hsfx := path_suffix_concat hsplit (by decide)
  unfold is_image_path
  rw [hsfx]
  by_cases hc : 0 < pre.length ∧ "html".data ≠ []
  · rw [if_pos hc]; decide
  · rw [if_neg hc]; decide

theorem not_html_suffix_of_webp (l : List Char) :
    ".html".data.isSuffixOf (l ++ ".webp".data) = false := by
  by_contra hcon
  rw [Bool.not_eq_false] at hcon
  obtain ⟨t, ht⟩ := List.isSuffixOf_iff_suffix.mp hcon
  have h1 : (t ++ ".html".data).getLast? = some 'l' := by
    rw [List.getLast?_append]
    have hh : ".html".data.getLast? = some 'l' := by decide
    rw [hh]
    rfl
  rw [ht] at h1
  have h2 : (l ++ ".webp".data).getLast? = some 'p' := by
    rw [List.getLast?_append]
    have hw : ".webp".data.getLast? = some 'p' := by decide
    rw [hw]
    rfl
  rw [h1] at h2
  exact absurd h2 (by decide)

theorem html_glob_with_webp_false (p : FsPath) :
    matches_html_glob (with_suffix p ".webp") = false := by
  unfold matches_html_glob
  rw [path_name_with_suffix, String.data_append]
  exact not_html_suffix_of_webp _

/-! ### Lemmas about `backup`, `patch_html_files` and `processOne` -/

theorem backup_eq (fs : FS) (src : FsPath) :
    backup fs src =
      if (fsLookup fs (BACKUP_DIR :: src)).isSome then fs
      else
        match fsLookup fs src with
        | some f => fsInsert fs (BACKUP_DIR :: src) f
        | none => fs := rfl

theorem backup_lookup_ne {fs : FS} {src q : FsPath} (hq : q ≠ BACKUP_DIR :: src) :
    fsLookup (backup fs src) q = fsLookup fs q := by
  rw [backup_eq]
  split
  · rfl
  · cases hs : fsLookup fs src with
    | some f => rw [fsLookup_insert, if_neg (fun he => hq he.symm)]
    | none => rfl

theorem backup_lookup_self_isSome {fs : FS} {src : FsPath} {f : File}
    (hsrc : fsLookup fs src = some f) :
    (fsLookup (backup fs src) (BACKUP_DIR :: src)).isSome = true := by
  rw [backup_eq]
  split
  · assumption
  · rw [hsrc]
    simp only []
    rw [fsLookup_insert, if_pos rfl]
    rfl

theorem backup_lookup_self_of_none {fs : FS} {src : FsPath} {f : File}
    (hnone : fsLookup fs (BACKUP_DIR :: src) = none) (hsrc : fsLookup fs src = some f) :
    fsLookup (backup fs src) (BACKUP_DIR :: src) = some f := by
  rw [backup_eq]
  rw [if_neg (by rw [hnone]; simp)]
  rw [hsrc]
  simp only []
  rw [fsLookup_insert, if_pos rfl]

theorem patch_cons (fs : FS) (h : FsPath) (hs : List FsPath)
    (renamed : List (String × String)) (tnew : Nat) :
    patch_html_files fs (h :: hs) renamed tnew =
      patch_html_files
        (match fsLookup fs h with
         | some f =>
             if rewriteChars f.data ≠ f.data then fsInsert fs h ⟨rewriteChars f.data, tnew⟩
             else fs
         | none => fs) hs renamed tnew := rfl

theorem patch_lookup_not_mem {htmls : List FsPath} :
    ∀ {fs : FS} {renamed : List (String × String)} {tnew : Nat} {q : FsPath},
      (∀ h ∈ htmls, q ≠ h) →
      fsLookup (patch_html_files fs htmls renamed tnew) q = fsLookup fs q := by
  induction htmls with
  | nil => intro fs r t q _; rfl
  | cons h hs ih =>
    intro fs r t q hq
    rw [patch_cons]
    rw [ih (fun x hx => hq x (List.mem_cons_of_mem h hx))]
    cases hl : fsLookup fs h with
    | some f =>
      simp only []
      split
      · rw [fsLookup_insert, if_neg (fun he => hq h (List.mem_cons_self h hs) he.symm)]
      · rfl
    | none => rfl

theorem patch_lookup_fixed {htmls : List FsPath} :
    ∀ {fs : FS} {renamed : List (String × String)} {tnew : Nat} {p : FsPath} {f : File},
      fsLookup fs p = some f → rewriteChars f.data = f.data →
      fsLookup (patch_html_files fs htmls renamed tnew) p = some f := by
  induction htmls with
  | nil => intro fs r t p f hp _; exact hp
  | cons h hs ih =>
    intro fs r t p f hp hfix
    rw [patch_cons]
    refine ih ?_ hfix
    by_cases hhp : h = p
    · subst hhp
      rw [hp]
      simp only []
      rw [if_neg (by rw [hfix]; simp)]
      exact hp
    · cases hl : fsLookup fs h with
      | some g =>
        simp only []
        split
        · rw [fsLookup_insert, if_neg hhp]
          exact hp
        · exact hp
      | none => exact hp

theorem patch_isSome_mono {htmls : List FsPath} :
    ∀ {fs : FS} {renamed : List (String × String)} {tnew : Nat} {q : FsPath},
      (fsLookup fs q).isSome = true →
      (fsLookup (patch_html_files fs htmls renamed tnew) q).isSome = true := by
  induction htmls with
  | nil => intro fs r t q hq; exact hq
  | cons h hs ih =>
    intro fs r t q hq
    rw [patch_cons]
    refine ih ?_
    cases hl : fsLookup fs h with
    | some g =>
      simp only []
      split
      · rw [fsLookup_insert]
        split
        · rfl
        · exact hq
      · exact hq
    | none => exact hq

theorem patch_none_mono {htmls : List FsPath} :
    ∀ {fs : FS} {renamed : List (String × String)} {tnew : Nat} {q : FsPath},
      fsLookup fs q = none →
      fsLookup (patch_html_files fs htmls renamed tnew) q = none := by
  induction htmls with
  | nil => intro fs r t q hq; exact hq
  | cons h hs ih =>
    intro fs r t q hq
    rw [patch_cons]
    refine ih ?_
    cases hl : fsLookup fs h with
    | some g =>
      simp only []
      split
      · rw [fsLookup_insert,
          if_neg (fun he => by rw [he] at hl; rw [hl] at hq; exact Option.noConfusion hq)]
        exact hq
      · exact hq
    | none => exact hq

theorem processOne_missing {encode : List Char → Option (List Char)} {tnew : Nat}
    {st : LoopSt} {src : FsPath} (h : fsLookup st.fs src = none) :
    processOne encode tnew st src = .error (.missingFile, st) := by
  unfold processOne
  rw [h]

theorem processOne_fail {encode : List Char → Option (List Char)} {tnew : Nat}
    {st : LoopSt} {src : FsPath} {f : File}
    (hf : fsLookup st.fs src = some f) (he : encode f.data = none) :
    processOne encode tnew st src =
      .ok { st with
            fs := backup st.fs src
            trace := (st.trace ++ [(st.fs, Ev.evBackup src)])
              ++ [(backup st.fs src, Ev.evConvertFail src)] } := by
  unfold processOne
  rw [hf]
  simp only [he]

theorem processOne_success {encode : List Char → Option (List Char)} {tnew : Nat}
    {st : LoopSt} {src : FsPath} {f : File} {out : List Char}
    (hf : fsLookup st.fs src = some f) (he : encode f.data = some out)
    (hsz : f.data.length ≠ 0) :
    processOne encode tnew st src =
      .ok { fs := fsErase
              (fsInsert (backup st.fs src) (with_suffix src ".webp") ⟨out, tnew⟩) src
            total_before := st.total_before + f.data.length
            total_after := st.total_after + out.length
            renamed := st.renamed ++ [(relStr src, relStr (with_suffix src ".webp"))]
            trace := ((st.trace ++ [(st.fs, Ev.evBackup src)])
                ++ [(backup st.fs src, Ev.evWriteWebp src (with_suffix src ".webp"))])
              ++ [(fsInsert (backup st.fs src) (with_suffix src ".webp") ⟨out, tnew⟩,
                   Ev.evUnlink src)] } := by
  unfold processOne
  rw [hf]
  simp only [he, if_neg hsz]

theorem processOne_zero {encode : List Char → Option (List Char)} {tnew : Nat}
    {st : LoopSt} {src : FsPath} {f : File} {out : List Char}
    (hf : fsLookup st.fs src = some f) (he : encode f.data = some out)
    (hsz : f.data.length = 0) :
    processOne encode tnew st src =
      .error (.zeroDiv,
        { st with
          fs := fsInsert (backup st.fs src) (with_suffix src ".webp") ⟨out, tnew⟩
          trace := (st.trace ++ [(st.fs, Ev.evBackup src)])
            ++ [(backup st.fs src, Ev.evWriteWebp src (with_suffix src ".webp"))] }) := by
  unfold processOne
  rw [hf]
  simp only [he, if_pos hsz]

/-! ### Lemmas about the image loop -/

theorem runLoop_cons (encode : List Char → Option (List Char)) (tnew : Nat)
    (st : LoopSt) (src : FsPath) (rest : List FsPath) :
    runLoop encode tnew st (src :: rest) =
      match processOne encode tnew st src with
      | .error (e, st') => (st', some e)
      | .ok st' => runLoop encode tnew st' rest := rfl

/-- `processOne` only appends trace entries, and every appended entry
concerns the processed image. -/
theorem processOne_trace_extend (encode : List Char → Option (List Char)) (tnew : Nat)
    (st : LoopSt) (src : FsPath) :
    ∃ new, (∀ ent ∈ new, Ev.src ent.2 = src) ∧
      ((∃ st', processOne encode tnew st src = .ok st' ∧ st'.trace = st.trace ++ new) ∨
       (∃ e st', processOne encode tnew st src = .error (e, st') ∧
          st'.trace = st.trace ++ new)) := by
  cases hl : fsLookup st.fs src with
  | none =>
    exact ⟨[], by simp, Or.inr ⟨.missingFile, st, processOne_missing hl, by simp⟩⟩
  | some f =>
    cases he : encode f.data with
    | none =>
      refine ⟨[(st.fs, Ev.evBackup src), (backup st.fs src, Ev.evConvertFail src)],
        ?_, Or.inl ⟨_, processOne_fail hl he, by simp⟩⟩
      intro ent hent
      simp only [List.mem_cons, List.not_mem_nil, or_false] at hent
      rcases hent with h | h
      · rw [h]; rfl
      · rw [h]; rfl
    | some out =>
      by_cases hsz : f.data.length = 0
      · refine ⟨[(st.fs, Ev.evBackup src),
          (backup st.fs src, Ev.evWriteWebp src (with_suffix src ".webp"))],
          ?_, Or.inr ⟨.zeroDiv, _, processOne_zero hl he hsz, by simp⟩⟩
        intro ent hent
        simp only [List.mem_cons, List.not_mem_nil, or_false] at hent
        rcases hent with h | h
        · rw [h]; rfl
        · rw [h]; rfl
      · refine ⟨[(st.fs, Ev.evBackup src),
          (backup st.fs src, Ev.evWriteWebp src (with_suffix src ".webp")),
          (fsInsert (backup st.fs src) (with_suffix src ".webp") ⟨out, tnew⟩,
            Ev.evUnlink src)],
          ?_, Or.inl ⟨_, processOne_success hl he hsz, by simp⟩⟩
        intro ent hent
        simp only [List.mem_cons, List.not_mem_nil, or_false] at hent
        rcases hent with h | h | h
        · rw [h]; rfl
        · rw [h]; rfl
        · rw [h]; rfl

/-- Every trace entry of a loop run is either inherited from the initial
state or concerns one of the processed images. -/
theorem runLoop_trace_src {encode : List Char → Option (List Char)} {tnew : Nat} :
    ∀ {pending : List FsPath} {st : LoopSt},
    ∀ ent ∈ (runLoop encode tnew st pending).1.trace,
      ent ∈ st.trace ∨ (Ev.src ent.2) ∈ pending := by
  intro pending
  induction pending with
  | nil => intro st ent hent; exact Or.inl hent
  | cons src rest ih =>
    intro st ent hent
    rw [runLoop_cons] at hent
    obtain ⟨new, hnew, hcase⟩ := processOne_trace_extend encode tnew st src
    rcases hcase with ⟨st', hok, htr⟩ | ⟨e, st', herr, htr⟩
    · rw [hok] at hent
      simp only [] at hent
      rcases ih ent hent with hold | hrest
      · rw [htr] at hold
        rcases List.mem_append.mp hold with h | h
        · exact Or.inl h
        · exact Or.inr (by rw [hnew ent h]; exact List.mem_cons_self src rest)
      · exact Or.inr (List.mem_cons_of_mem src hrest)
    · rw [herr] at hent
      simp only [] at hent
      rw [htr] at hent
      rcases List.mem_append.mp hent with h | h
      · exact Or.inl h
      · exact Or.inr (by rw [hnew ent h]; exact List.mem_cons_self src rest)

theorem fsInsert_isSome_mono {fs : FS} {k q : FsPath} {f : File}
    (h : (fsLookup fs q).isSome = true) :
    (fsLookup (fsInsert fs k f) q).isSome = true := by
  rw [fsLookup_insert]
  split
  · rfl
  · exact h

theorem backup_isSome_mono {fs : FS} {src q : FsPath}
    (h : (fsLookup fs q).isSome = true) :
    (fsLookup (backup fs src) q).isSome = true := by
  rw [backup_eq]
  split
  · exact h
  · cases hs : fsLookup fs src with
    | some f => exact fsInsert_isSome_mono h
    | none => exact h

/-- A present path distinct from every pending image is never deleted by
the loop. -/
theorem runLoop_isSome_mono {encode : List Char → Option (List Char)} {tnew : Nat} :
    ∀ {pending : List FsPath} {st : LoopSt} {q : FsPath},
    (∀ p ∈ pending, q ≠ p) → (fsLookup st.fs q).isSome = true →
    (fsLookup (runLoop encode tnew st pending).1.fs q).isSome = true := by
  intro pending
  induction pending with
  | nil => intro st q _ h; exact h
  | cons src rest ih =>
    intro st q hq h
    rw [runLoop_cons]
    cases hl : fsLookup st.fs src with
    | none =>
      rw [processOne_missing hl]
      exact h
    | some f =>
      cases he : encode f.data with
      | none =>
        rw [processOne_fail hl he]
        exact ih (fun p hp => hq p (List.mem_cons_of_mem src hp)) (backup_isSome_mono h)
      | some out =>
        by_cases hsz : f.data.length = 0
        · rw [processOne_zero hl he hsz]
          exact fsInsert_isSome_mono (backup_isSome_mono h)
        · rw [processOne_success hl he hsz]
          refine ih (fun p hp => hq p (List.mem_cons_of_mem src hp)) ?_
          simp only []
          rw [fsLookup_erase, if_neg (fun hsrc => hq src (List.mem_cons_self src rest) hsrc.symm)]
          exact fsInsert_isSome_mono (backup_isSome_mono h)

/-- An absent path that is neither a backup destination nor a conversion
destination of a pending image stays absent. -/
theorem runLoop_none_mono {encode : List Char → Option (List Char)} {tnew : Nat} :
    ∀ {pending : List FsPath} {st : LoopSt} {q : FsPath},
    (∀ p ∈ pending, q ≠ BACKUP_DIR :: p ∧ q ≠ with_suffix p ".webp") →
    fsLookup st.fs q = none →
    fsLookup (runLoop encode tnew st pending).1.fs q = none := by
  intro pending
  induction pending with
  | nil => intro st q _ h; exact h
  | cons src rest ih =>
    intro st q hq h
    have hstep1 : fsLookup (backup st.fs src) q = none := by
      rw [backup_lookup_ne (hq src (List.mem_cons_self src rest)).1]
      exact h
    have hstep2 : fsLookup
        (fsInsert (backup st.fs src) (with_suffix src ".webp") ⟨(encode [] ).getD [], tnew⟩) q
          = none := by
      rw [fsLookup_insert, if_neg (fun he => (hq src (List.mem_cons_self src rest)).2 he.symm)]
      exact hstep1
    rw [runLoop_cons]
    cases hl : fsLookup st.fs src with
    | none =>
      rw [processOne_missing hl]
      exact h
    | some f =>
      cases he : encode f.data with
      | none =>
        rw [processOne_fail hl he]
        exact ih (fun p hp => hq p (List.mem_cons_of_mem src hp)) hstep1
      | some out =>
        have hstep2' : fsLookup
            (fsInsert (backup st.fs src) (with_suffix src ".webp") ⟨out, tnew⟩) q = none := by
          rw [fsLookup_insert,
            if_neg (fun he => (hq src (List.mem_cons_self src rest)).2 he.symm)]
          exact hstep1
        by_cases hsz : f.data.length = 0
        · rw [processOne_zero hl he hsz]
          exact hstep2'
        · rw [processOne_success hl he hsz]
          refine ih (fun p hp => hq p (List.mem_cons_of_mem src hp)) ?_
          simp only []
          rw [fsLookup_erase]
          split
          · rfl
          · exact hstep2'

/-- Loop invariant for backup-before-delete: every deletion event in the
trace finds the backup present in the snapshot taken right before the
deletion, and byte-identical to the original whenever no file occupied
the backup path in the initial tree `fs0`. -/
theorem runLoop_backup_inv {fs0 : FS} {encode : List Char → Option (List Char)} {tnew : Nat} :
    ∀ {pending : List FsPath} {st : LoopSt},
    (∀ p ∈ pending, should_skip p = false ∧ is_image_path p = true) →
    pending.Nodup →
    (∀ p ∈ pending, fsLookup fs0 (BACKUP_DIR :: p) = none →
        fsLookup st.fs (BACKUP_DIR :: p) = none) →
    (∀ ent ∈ st.trace, ∀ p, ent.2 = Ev.evUnlink p →
        (fsLookup ent.1 (BACKUP_DIR :: p)).isSome = true ∧
        (fsLookup fs0 (BACKUP_DIR :: p) = none →
          (fsLookup ent.1 (BACKUP_DIR :: p)).map File.data =
            (fsLookup ent.1 p).map File.data)) →
    ∀ ent ∈ (runLoop encode tnew st pending).1.trace, ∀ p, ent.2 = Ev.evUnlink p →
        (fsLookup ent.1 (BACKUP_DIR :: p)).isSome = true ∧
        (fsLookup fs0 (BACKUP_DIR :: p) = none →
          (fsLookup ent.1 (BACKUP_DIR :: p)).map File.data =
            (fsLookup ent.1 p).map File.data) := by
  intro pending
  induction pending with
  | nil => intro st _ _ _ htr; exact htr
  | cons src rest ih =>
    intro st hpend hnd hback htr
    have hsrc := hpend src (List.mem_cons_self src rest)
    have hnd' := (List.nodup_cons.mp hnd).2
    have hsrcrest := (List.nodup_cons.mp hnd).1
    rw [runLoop_cons]
    cases hl : fsLookup st.fs src with
    | none =>
      rw [processOne_missing hl]
      exact htr
    | some f =>
      cases he : encode f.data with
      | none =>
        rw [processOne_fail hl he]
        refine ih (fun p hp => hpend p (List.mem_cons_of_mem src hp)) hnd' ?_ ?_
        · intro p hp habs
          rw [backup_lookup_ne (by
            intro hc
            exact hsrcrest (by
              have : p = src := by injection hc
              rw [← this]; exact hp))]
          exact hback p (List.mem_cons_of_mem src hp) habs
        · intro ent hent q hq
          simp only [List.append_assoc, List.cons_append, List.nil_append, List.mem_append,
            List.mem_cons, List.not_mem_nil, or_false] at hent
          rcases hent with hold | h | h
          · exact htr ent hold q hq
          · rw [h] at hq; exact absurd hq (by simp)
          · rw [h] at hq; exact absurd hq (by simp)
      | some out =>
        by_cases hsz : f.data.length = 0
        · rw [processOne_zero hl he hsz]
          intro ent hent q hq
          simp only [List.append_assoc, List.cons_append, List.nil_append, List.mem_append,
            List.mem_cons, List.not_mem_nil, or_false] at hent
          rcases hent with hold | h | h
          · exact htr ent hold q hq
          · rw [h] at hq; exact absurd hq (by simp)
          · rw [h] at hq; exact absurd hq (by simp)
        · rw [processOne_success hl he hsz]
          have hbackup_ne_webp : with_suffix src ".webp" ≠ BACKUP_DIR :: src :=
            ne_backup_of_not_skip (should_skip_with_webp hsrc.1) src
          have hsrc_ne_webp : src ≠ with_suffix src ".webp" :=
            ne_with_webp_of_images hsrc.2 hsrc.2
          have hsrc_ne_backup : src ≠ BACKUP_DIR :: src := ne_backup_of_not_skip hsrc.1 src
          refine ih (fun p hp => hpend p (List.mem_cons_of_mem src hp)) hnd' ?_ ?_
          · intro p hp habs
            simp only []
            rw [fsLookup_erase, if_neg (fun hc =>
              (ne_backup_of_not_skip hsrc.1 p) hc)]
            rw [fsLookup_insert, if_neg (fun hc =>
              (ne_backup_of_not_skip (should_skip_with_webp hsrc.1) p) hc)]
            rw [backup_lookup_ne (by
              intro hc
              exact hsrcrest (by
                have : p = src := by injection hc
                rw [← this]; exact hp))]
            exact hback p (List.mem_cons_of_mem src hp) habs
          · intro ent hent q hq
            simp only [List.append_assoc, List.cons_append, List.nil_append, List.mem_append,
              List.mem_cons, List.not_mem_nil, or_false] at hent
            rcases hent with hold | h | h | h
            · exact htr ent hold q hq
            · rw [h] at hq; exact absurd hq (by simp)
            · rw [h] at hq; exact absurd hq (by simp)
            · rw [h] at hq ⊢
              simp only [Ev.evUnlink.injEq] at hq
              subst hq
              constructor
              · simp only []
                rw [fsLookup_insert, if_neg (fun hc => hbackup_ne_webp hc)]
                exact backup_lookup_self_isSome hl
              · intro habs
                have habs' : fsLookup st.fs (BACKUP_DIR :: src) = none :=
                  hback src (List.mem_cons_self src rest) habs
                simp only []
                rw [fsLookup_insert, if_neg (fun hc => hbackup_ne_webp hc)]
                rw [backup_lookup_self_of_none habs' hl]
                rw [fsLookup_insert, if_neg (fun hc => hsrc_ne_webp hc.symm)]
                rw [backup_lookup_ne hsrc_ne_backup, hl]

theorem succImgs_cons_fail {fs0 : FS} {encode : List Char → Option (List Char)}
    {src : FsPath} {f : File} (rest : List FsPath)
    (hf0 : fsLookup fs0 src = some f) (he : encode f.data = none) :
    succImgs fs0 encode (src :: rest) = succImgs fs0 encode rest := by
  unfold succImgs
  rw [List.filter_cons, if_neg (by rw [hf0]; simp [he])]

theorem succImgs_cons_succ {fs0 : FS} {encode : List Char → Option (List Char)}
    {src : FsPath} {f : File} {out : List Char} (rest : List FsPath)
    (hf0 : fsLookup fs0 src = some f) (he : encode f.data = some out) :
    succImgs fs0 encode (src :: rest) = src :: succImgs fs0 encode rest := by
  unfold succImgs
  rw [List.filter_cons, if_pos (by rw [hf0]; simp [he])]

theorem sizesBefore_cons {fs0 : FS} {x : FsPath} {f : File} (l : List FsPath)
    (hf0 : fsLookup fs0 x = some f) :
    sizesBefore fs0 (x :: l) = f.data.length + sizesBefore fs0 l := by
  unfold sizesBefore
  rw [List.map_cons, List.sum_cons, hf0]

theorem sizesAfter_cons {fs0 : FS} {encode : List Char → Option (List Char)}
    {x : FsPath} {f : File} {out : List Char} (l : List FsPath)
    (hf0 : fsLookup fs0 x = some f) (he : encode f.data = some out) :
    sizesAfter fs0 encode (x :: l) = out.length + sizesAfter fs0 encode l := by
  unfold sizesAfter
  rw [List.map_cons, List.sum_cons, hf0]
  simp only [he]

/-- Full characterisation of a completed image loop: when every pending
image is an unskipped, untouched image file of nonzero size, the loop
finishes without an uncaught error; the rename map, the byte totals, the
backup entries, the per-image outcomes and the frame condition are as
the source prescribes. -/
theorem runLoop_master {fs0 : FS} {encode : List Char → Option (List Char)} {tnew : Nat} :
    ∀ {pending : List FsPath} {st : LoopSt},
    (∀ p ∈ pending, should_skip p = false ∧ is_image_path p = true ∧
        fsLookup st.fs p = fsLookup fs0 p ∧
        ∃ f, fsLookup fs0 p = some f ∧ f.data.length ≠ 0) →
    pending.Nodup →
    (runLoop encode tnew st pending).2 = none ∧
    (runLoop encode tnew st pending).1.renamed =
      st.renamed ++ (succImgs fs0 encode pending).map
        (fun p => (relStr p, relStr (with_suffix p ".webp"))) ∧
    (runLoop encode tnew st pending).1.total_before =
      st.total_before + sizesBefore fs0 (succImgs fs0 encode pending) ∧
    (runLoop encode tnew st pending).1.total_after =
      st.total_after + sizesAfter fs0 encode (succImgs fs0 encode pending) ∧
    (∀ p ∈ pending,
        (fsLookup (runLoop encode tnew st pending).1.fs (BACKUP_DIR :: p)).isSome = true) ∧
    (∀ p ∈ pending, ∀ f, fsLookup fs0 p = some f →
        ((encode f.data).isSome = true →
            fsLookup (runLoop encode tnew st pending).1.fs p = none ∧
            (fsLookup (runLoop encode tnew st pending).1.fs
              (with_suffix p ".webp")).isSome = true) ∧
        (encode f.data = none →
            fsLookup (runLoop encode tnew st pending).1.fs p = some f)) ∧
    (∀ q, (∀ p ∈ pending, q ≠ p ∧ q ≠ BACKUP_DIR :: p ∧ q ≠ with_suffix p ".webp") →
        fsLookup (runLoop encode tnew st pending).1.fs q = fsLookup st.fs q) := by
  intro pending
  induction pending with
  | nil =>
    intro st _ _
    refine ⟨rfl, by simp [succImgs, runLoop], by simp [succImgs, sizesBefore, runLoop],
      by simp [succImgs, sizesAfter, runLoop], by simp, by simp, fun q _ => rfl⟩
  | cons src rest ih =>
    intro st hpend hnd
    obtain ⟨hskip, himg, hlook, f, hf0, hfsz⟩ := hpend src (List.mem_cons_self src rest)
    have hl : fsLookup st.fs src = some f := by rw [hlook, hf0]
    have hnd' := (List.nodup_cons.mp hnd).2
    have hsrcrest := (List.nodup_cons.mp hnd).1
    have hrest_ne_src : ∀ p ∈ rest, src ≠ p := by
      intro p hp hc
      exact hsrcrest (hc ▸ hp)
    cases he : encode f.data with
    | none =>
      have hrl : runLoop encode tnew st (src :: rest) =
          runLoop encode tnew
            { st with fs := backup st.fs src
                      trace := (st.trace ++ [(st.fs, Ev.evBackup src)])
                        ++ [(backup st.fs src, Ev.evConvertFail src)] } rest := by
        rw [runLoop_cons, processOne_fail hl he]
      have hpend' : ∀ p ∈ rest, should_skip p = false ∧ is_image_path p = true ∧
          fsLookup (backup st.fs src) p = fsLookup fs0 p ∧
          ∃ g, fsLookup fs0 p = some g ∧ g.data.length ≠ 0 := by
        intro p hp
        obtain ⟨h1, h2, h3, h4⟩ := hpend p (List.mem_cons_of_mem src hp)
        exact ⟨h1, h2, by rw [backup_lookup_ne (ne_backup_of_not_skip h1 src)]; exact h3, h4⟩
      obtain ⟨ih1, ih2, ih3, ih4, ih5, ih6, ih7⟩ := @ih { st with
        fs := backup st.fs src
        trace := (st.trace ++ [(st.fs, Ev.evBackup src)])
          ++ [(backup st.fs src, Ev.evConvertFail src)] } hpend' hnd'
      rw [hrl]
      rw [succImgs_cons_fail rest hf0 he]
      refine ⟨ih1, ih2, ih3, ih4, ?_, ?_, ?_⟩
      · intro p hp
        rcases List.mem_cons.mp hp with hp | hp
        · subst hp
          refine runLoop_isSome_mono ?_ ?_
          · intro x hx hc
            exact (ne_backup_of_not_skip (hpend x (List.mem_cons_of_mem _ hx)).1 p) hc.symm
          · exact backup_lookup_self_isSome hl
        · exact ih5 p hp
      · intro p hp g hg
        rcases List.mem_cons.mp hp with hp | hp
        · subst hp
          rw [hf0] at hg
          obtain rfl : f = g := by injection hg
          constructor
          · intro hsome
            rw [he] at hsome
            exact absurd hsome (by simp)
          · intro _
            rw [ih7 p (by
              intro x hx
              refine ⟨hrest_ne_src x hx, ne_backup_of_not_skip hskip x,
                ne_with_webp_of_images himg (hpend x (List.mem_cons_of_mem _ hx)).2.1⟩)]
            simp only []
            rw [backup_lookup_ne (ne_backup_of_not_skip hskip p)]
            exact hl
        · exact ih6 p hp g hg
      · intro q hq
        rw [ih7 q (fun p hp => hq p (List.mem_cons_of_mem src hp))]
        simp only []
        rw [backup_lookup_ne (hq src (List.mem_cons_self src rest)).2.1]
    | some out =>
      have hrl : runLoop encode tnew st (src :: rest) =
          runLoop encode tnew
            { fs := fsErase (fsInsert (backup st.fs src) (with_suffix src ".webp") ⟨out, tnew⟩) src
              total_before := st.total_before + f.data.length
              total_after := st.total_after + out.length
              renamed := st.renamed ++ [(relStr src, relStr (with_suffix src ".webp"))]
              trace := ((st.trace ++ [(st.fs, Ev.evBackup src)]) ++ [(backup st.fs src, Ev.evWriteWebp src (with_suffix src ".webp"))]) ++ [(fsInsert (backup st.fs src) (with_suffix src ".webp") ⟨out, tnew⟩, Ev.evUnlink src)] } rest := by
        rw [runLoop_cons, processOne_success hl he hfsz]
      have hfs4 : ∀ p ∈ rest, fsLookup
          (fsErase (fsInsert (backup st.fs src) (with_suffix src ".webp") ⟨out, tnew⟩) src) p
            = fsLookup st.fs p := by
        intro p hp
        obtain ⟨h1, h2, h3, h4⟩ := hpend p (List.mem_cons_of_mem src hp)
        rw [fsLookup_erase, if_neg (hrest_ne_src p hp)]
        rw [fsLookup_insert, if_neg (fun hc =>
          (ne_with_webp_of_images h2 himg) hc.symm)]
        rw [backup_lookup_ne (ne_backup_of_not_skip h1 src)]
      have hpend' : ∀ p ∈ rest, should_skip p = false ∧ is_image_path p = true ∧
          fsLookup
            (fsErase (fsInsert (backup st.fs src) (with_suffix src ".webp") ⟨out, tnew⟩) src) p
              = fsLookup fs0 p ∧
          ∃ g, fsLookup fs0 p = some g ∧ g.data.length ≠ 0 := by
        intro p hp
        obtain ⟨h1, h2, h3, h4⟩ := hpend p (List.mem_cons_of_mem src hp)
        exact ⟨h1, h2, by rw [hfs4 p hp]; exact h3, h4⟩
      obtain ⟨ih1, ih2, ih3, ih4, ih5, ih6, ih7⟩ := @ih
        { fs := fsErase (fsInsert (backup st.fs src) (with_suffix src ".webp") ⟨out, tnew⟩) src
          total_before := st.total_before + f.data.length
          total_after := st.total_after + out.length
          renamed := st.renamed ++ [(relStr src, relStr (with_suffix src ".webp"))]
          trace := ((st.trace ++ [(st.fs, Ev.evBackup src)]) ++ [(backup st.fs src, Ev.evWriteWebp src (with_suffix src ".webp"))]) ++ [(fsInsert (backup st.fs src) (with_suffix src ".webp") ⟨out, tnew⟩, Ev.evUnlink src)] } hpend' hnd'
      rw [hrl]
      rw [succImgs_cons_succ rest hf0 he]
      refine ⟨ih1, ?_, ?_, ?_, ?_, ?_, ?_⟩
      · rw [ih2]
        simp only [List.map_cons]
        rw [List.append_assoc]
        rfl
      · rw [ih3, sizesBefore_cons _ hf0]
        simp only []
        omega
      · rw [ih4, sizesAfter_cons _ hf0 he]
        simp only []
        omega
      · intro p hp
        rcases List.mem_cons.mp hp with hp | hp
        · subst hp
          refine runLoop_isSome_mono ?_ ?_
          · intro x hx hc
            exact (ne_backup_of_not_skip (hpend x (List.mem_cons_of_mem _ hx)).1 p) hc.symm
          · simp only []
            rw [fsLookup_erase, if_neg (ne_backup_of_not_skip hskip p)]
            rw [fsLookup_insert,
              if_neg (ne_backup_of_not_skip (should_skip_with_webp hskip) p)]
            exact backup_lookup_self_isSome hl
        · exact ih5 p hp
      · intro p hp g hg
        rcases List.mem_cons.mp hp with hp | hp
        · subst hp
          rw [hf0] at hg
          obtain rfl : f = g := by injection hg
          constructor
          · intro _
            constructor
            · refine runLoop_none_mono ?_ ?_
              · intro x hx
                exact ⟨ne_backup_of_not_skip hskip x,
                  ne_with_webp_of_images himg (hpend x (List.mem_cons_of_mem _ hx)).2.1⟩
              · simp only []
                rw [fsLookup_erase, if_pos rfl]
            · refine runLoop_isSome_mono ?_ ?_
              · intro x hx hc
                exact (ne_with_webp_of_images (hpend x (List.mem_cons_of_mem _ hx)).2.1
                  himg) hc.symm
              · simp only []
                rw [fsLookup_erase, if_neg (ne_with_webp_of_images himg himg)]
                rw [fsLookup_insert, if_pos rfl]
                rfl
          · intro hnone
            rw [he] at hnone
            exact Option.noConfusion hnone
        · exact ih6 p hp g hg
      · intro q hq
        rw [ih7 q (fun p hp => hq p (List.mem_cons_of_mem src hp))]
        simp only []
        rw [fsLookup_erase, if_neg (fun hc => (hq src (List.mem_cons_self src rest)).1 hc.symm)]
        rw [fsLookup_insert, if_neg (fun hc =>
          (hq src (List.mem_cons_self src rest)).2.2 hc.symm)]
        rw [backup_lookup_ne (hq src (List.mem_cons_self src rest)).2.1]

/-! ### Exact-match lemmas for the rewriter -/

theorem extsData_no_quote {e : List Char} (he : e.map Char.toLower ∈ extsData) :
    ∀ c ∈ e, isQuote c = false := by
  intro c hc
  have hmem : c.toLower ∈ e.map Char.toLower := List.mem_map_of_mem _ hc
  simp only [extsData, List.mem_cons, List.not_mem_nil, or_false] at he
  by_contra hqn
  rw [Bool.not_eq_false] at hqn
  simp only [isQuote, Bool.or_eq_true, decide_eq_true_eq] at hqn
  rcases hqn with h | h <;> subst h <;>
    rcases he with he | he | he <;> rw [he] at hmem <;>
    exact absurd hmem (by decide)

theorem extsData_ne_nil {e : List Char} (he : e.map Char.toLower ∈ extsData) : e ≠ [] := by
  intro hnil
  subst hnil
  simp only [List.map_nil, extsData, List.mem_cons, List.not_mem_nil, or_false] at he
  rcases he with he | he | he <;> exact absurd he (by decide)

theorem extsData_last_g {e : List Char} (he : e.map Char.toLower ∈ extsData) :
    (e.map Char.toLower).getLast? = some 'g' := by
  simp only [extsData, List.mem_cons, List.not_mem_nil, or_false] at he
  rcases he with he | he | he <;> rw [he] <;> decide

theorem extsData_len {e : List Char} (he : e.map Char.toLower ∈ extsData) :
    e.length = 4 ∨ e.length = 5 := by
  have hlen : (e.map Char.toLower).length = e.length := List.length_map e _
  simp only [extsData, List.mem_cons, List.not_mem_nil, or_false] at he
  rcases he with he | he | he <;> rw [he] at hlen <;> simp at hlen <;> omega

theorem extsData_head_dot {e : List Char} (he : e.map Char.toLower ∈ extsData) :
    ∃ tl, e.map Char.toLower = '.' :: tl := by
  simp only [extsData, List.mem_cons, List.not_mem_nil, or_false] at he
  rcases he with he | he | he <;> exact ⟨_, he⟩

/-- Splitting a list at a unique quote position: if two decompositions
put a quote after a quote-free prefix, the decompositions coincide. -/
theorem split_at_quote : ∀ {x : List Char} {c : Char} {y : List Char}
    {u : List Char} {d : Char} {v : List Char},
    x ++ c :: y = u ++ d :: v →
    (∀ a ∈ x, isQuote a = false) → (∀ a ∈ u, isQuote a = false) →
    isQuote c = true → isQuote d = true →
    x = u ∧ c = d ∧ y = v := by
  intro x
  induction x with
  | nil =>
    intro c y u d v he hx hu hc hd
    cases u with
    | nil =>
      simp only [List.nil_append, List.cons.injEq] at he
      exact ⟨rfl, he.1, he.2⟩
    | cons a us =>
      simp only [List.nil_append, List.cons_append, List.cons.injEq] at he
      rw [he.1] at hc
      rw [hu a (List.mem_cons_self a us)] at hc
      exact Bool.noConfusion hc
  | cons a xs ih =>
    intro c y u d v he hx hu hc hd
    cases u with
    | nil =>
      simp only [List.cons_append, List.nil_append, List.cons.injEq] at he
      rw [← he.1] at hd
      rw [hx a (List.mem_cons_self a xs)] at hd
      exact Bool.noConfusion hd
    | cons b us =>
      simp only [List.cons_append, List.cons.injEq] at he
      obtain ⟨hab, htail⟩ := he
      obtain ⟨h1, h2, h3⟩ := ih htail (fun z hz => hx z (List.mem_cons_of_mem a hz))
        (fun z hz => hu z (List.mem_cons_of_mem b hz)) hc hd
      exact ⟨by rw [hab, h1], h2, h3⟩

theorem list_map_eq_cons {f : Char → Char} {e : List Char} {a : Char} {rest : List Char}
    (h : e.map f = a :: rest) : ∃ x xs, e = x :: xs ∧ f x = a ∧ xs.map f = rest := by
  cases e with
  | nil => simp at h
  | cons x xs =>
    simp only [List.map_cons, List.cons.injEq] at h
    exact ⟨x, xs, rfl, h.1, h.2⟩

/-- Auxiliary unfolding equations for `stripCI`. -/
theorem stripCI_cons_ne {p : Char} {ps : List Char} {c : Char} {cs : List Char}
    (h : ¬ c.toLower = p) : stripCI (p :: ps) (c :: cs) = none := by
  have hstep : stripCI (p :: ps) (c :: cs) =
      if c.toLower = p then
        match stripCI ps cs with
        | some (m, r) => some (c :: m, r)
        | none => none
      else none := rfl
  rw [hstep, if_neg h]

theorem stripCI_cons_eq {p : Char} {ps : List Char} {c : Char} {cs : List Char}
    (h : c.toLower = p) : stripCI (p :: ps) (c :: cs) =
      match stripCI ps cs with
      | some (m, r) => some (c :: m, r)
      | none => none := by
  have hstep : stripCI (p :: ps) (c :: cs) =
      if c.toLower = p then
        match stripCI ps cs with
        | some (m, r) => some (c :: m, r)
        | none => none
      else none := rfl
  rw [hstep, if_pos h]

/-- When the text continues with a full extension alternative and a
closing quote, `tryExtQuote` consumes exactly them. -/
theorem tryExtQuote_exact {ext : List Char} {q' : Char} {rest : List Char}
    (hext : ext.map Char.toLower ∈ extsData) (hq' : isQuote q' = true) :
    tryExtQuote (ext ++ q' :: rest) = some (ext, q', rest) := by
  have hjpg : ".jpg".data = ['.', 'j', 'p', 'g'] := by decide
  have hjpeg : ".jpeg".data = ['.', 'j', 'p', 'e', 'g'] := by decide
  have hpng : ".png".data = ['.', 'p', 'n', 'g'] := by decide
  simp only [extsData, List.mem_cons, List.not_mem_nil, or_false] at hext
  rcases hext with he | he | he
  · have h1 : tryOne ".jpg".data (ext ++ q' :: rest) = some (ext, q', rest) := by
      unfold tryOne
      rw [stripCI_complete he (q' :: rest)]
      simp [hq']
    unfold tryExtQuote
    rw [h1]
  · obtain ⟨x1, e1, rfl, hx1, hm1⟩ := list_map_eq_cons he
    obtain ⟨x2, e2, rfl, hx2, hm2⟩ := list_map_eq_cons hm1
    obtain ⟨x3, e3, rfl, hx3, hm3⟩ := list_map_eq_cons hm2
    obtain ⟨x4, e4, rfl, hx4, hm4⟩ := list_map_eq_cons hm3
    obtain ⟨x5, e5, rfl, hx5, hm5⟩ := list_map_eq_cons hm4
    obtain rfl : e5 = [] := by
      cases e5 with
      | nil => rfl
      | cons z zs => simp at hm5
    have h1 : tryOne ".jpg".data (([x1, x2, x3, x4, x5] : List Char) ++ q' :: rest)
        = none := by
      unfold tryOne
      rw [hjpg]
      simp only [List.cons_append, List.nil_append]
      rw [stripCI_cons_eq hx1, stripCI_cons_eq hx2, stripCI_cons_eq hx3,
        stripCI_cons_ne (by rw [hx4]; decide)]
    have h2 : tryOne ".jpeg".data (([x1, x2, x3, x4, x5] : List Char) ++ q' :: rest)
        = some ([x1, x2, x3, x4, x5], q', rest) := by
      unfold tryOne
      rw [stripCI_complete (by
        simp only [List.map_cons, List.map_nil, hx1, hx2, hx3, hx4, hx5]) (q' :: rest)]
      simp [hq']
    unfold tryExtQuote
    rw [h1, h2]
  · obtain ⟨x1, e1, rfl, hx1, hm1⟩ := list_map_eq_cons he
    obtain ⟨x2, e2, rfl, hx2, hm2⟩ := list_map_eq_cons hm1
    obtain ⟨x3, e3, rfl, hx3, hm3⟩ := list_map_eq_cons hm2
    obtain ⟨x4, e4, rfl, hx4, hm4⟩ := list_map_eq_cons hm3
    obtain rfl : e4 = [] := by
      cases e4 with
      | nil => rfl
      | cons z zs => simp at hm4
    have h1 : tryOne ".jpg".data (([x1, x2, x3, x4] : List Char) ++ q' :: rest) = none := by
      unfold tryOne
      rw [hjpg]
      simp only [List.cons_append, List.nil_append]
      rw [stripCI_cons_eq hx1, stripCI_cons_ne (by rw [hx2]; decide)]
    have h2 : tryOne ".jpeg".data (([x1, x2, x3, x4] : List Char) ++ q' :: rest) = none := by
      unfold tryOne
      rw [hjpeg]
      simp only [List.cons_append, List.nil_append]
      rw [stripCI_cons_eq hx1, stripCI_cons_ne (by rw [hx2]; decide)]
    have h3 : tryOne ".png".data (([x1, x2, x3, x4] : List Char) ++ q' :: rest)
        = some ([x1, x2, x3, x4], q', rest) := by
      unfold tryOne
      rw [stripCI_complete (by
        simp only [List.map_cons, List.map_nil, hx1, hx2, hx3, hx4]) (q' :: rest)]
      simp [hq']
    unfold tryExtQuote
    rw [h1, h2, h3]

/-- In a quote-free stretch longer than one extension, `tryExtQuote`
cannot fire: the closing quote it needs would have to sit inside the
quote-free stretch. -/
theorem tryExtQuote_none_inner {b ext : List Char} {q' : Char} {rest : List Char}
    (hb : b ≠ []) (hbq : ∀ c ∈ b, isQuote c = false)
    (hext : ext.map Char.toLower ∈ extsData)
    (hq' : isQuote q' = true) :
    tryExtQuote (b ++ ext ++ q' :: rest) = none := by
  cases ht : tryExtQuote (b ++ ext ++ q' :: rest) with
  | none => rfl
  | some res =>
    obtain ⟨E, c2, r⟩ := res
    obtain ⟨heq, hEext, hc2⟩ := tryExtQuote_sound ht
    have heq' : (b ++ ext) ++ q' :: rest = E ++ c2 :: r := by
      rw [← heq, List.append_assoc]
    have hbextq : ∀ a ∈ b ++ ext, isQuote a = false := by
      intro a ha
      rcases List.mem_append.mp ha with h | h
      · exact hbq a h
      · exact extsData_no_quote hext a h
    obtain ⟨hE, hq, hr⟩ := split_at_quote heq' hbextq (extsData_no_quote hEext) hq' hc2
    have hlb : 1 ≤ b.length := by
      cases b with
      | nil => exact absurd rfl hb
      | cons z zs => simp
    have hlenE : E.length = b.length + ext.length := by
      rw [← hE, List.length_append]
    rcases extsData_len hext with h4 | h5 <;> rcases extsData_len hEext with hE4 | hE5
    · omega
    · -- E has length 5, so its lowering is ".jpeg"; but then ext's
      -- lowering would have to be "jpeg", which is not an extension.
      have hb1 : b.length = 1 := by omega
      obtain ⟨x, rfl⟩ : ∃ x, b = [x] := by
        cases b with
        | nil => simp at hb1
        | cons z zs =>
          cases zs with
          | nil => exact ⟨z, rfl⟩
          | cons w ws => simp at hb1
      have hEmap : E.map Char.toLower = ['.', 'j', 'p', 'e', 'g'] := by
        have h5' : (E.map Char.toLower).length = 5 := by
          rw [List.length_map]; exact hE5
        simp only [extsData, List.mem_cons, List.not_mem_nil, or_false] at hEext
        rcases hEext with h | h | h
        · rw [h] at h5'; exact absurd h5' (by decide)
        · exact h
        · rw [h] at h5'; exact absurd h5' (by decide)
      rw [← hE] at hEmap
      simp only [List.cons_append, List.nil_append, List.map_cons, List.cons.injEq] at hEmap
      obtain ⟨htl, hexteq⟩ := hEmap
      obtain ⟨tl, hdot⟩ := extsData_head_dot hext
      rw [hexteq] at hdot
      simp at hdot
    · omega
    · omega

/-- `scanBody` finds exactly the decomposition of a quote-free body
followed by an extension and a closing quote. -/
theorem scanBody_exact : ∀ {body : List Char} {ext : List Char} {q' : Char} {rest : List Char},
    body ≠ [] → (∀ c ∈ body, isQuote c = false) →
    ext.map Char.toLower ∈ extsData → isQuote q' = true →
    scanBody (body ++ ext ++ q' :: rest) = some (body, ext, q', rest) := by
  intro body
  induction body with
  | nil => intro ext q' rest hb _ _ _; exact absurd rfl hb
  | cons c b ih =>
    intro ext q' rest _ hbq hext hq'
    have hc : isQuote c = false := hbq c (List.mem_cons_self c b)
    have hstep : scanBody ((c :: b) ++ ext ++ q' :: rest) =
        if isQuote c then none
        else
          match tryExtQuote (b ++ ext ++ q' :: rest) with
          | some (e, q2, r) => some ([c], e, q2, r)
          | none =>
            match scanBody (b ++ ext ++ q' :: rest) with
            | some (bb, e, q2, r) => some (c :: bb, e, q2, r)
            | none => none := rfl
    rw [hstep, if_neg (by rw [hc]; exact Bool.noConfusion)]
    cases b with
    | nil =>
      simp only [List.nil_append]
      rw [tryExtQuote_exact hext hq']
    | cons y b2 =>
      rw [tryExtQuote_none_inner (by simp) (fun z hz => hbq z (List.mem_cons_of_mem c hz))
        hext hq']
      rw [ih (by simp) (fun z hz => hbq z (List.mem_cons_of_mem c hz)) hext hq']

/-- A quote-free text contains no match. -/
theorem scanBody_none_of_noquote : ∀ {cs : List Char},
    (∀ c ∈ cs, isQuote c = false) → scanBody cs = none := by
  intro cs
  induction cs with
  | nil => intro _; rfl
  | cons c cs ih =>
    intro h
    have hstep : scanBody (c :: cs) =
        if isQuote c then none
        else
          match tryExtQuote cs with
          | some (e, q2, r) => some ([c], e, q2, r)
          | none =>
            match scanBody cs with
            | some (b, e, q2, r) => some (c :: b, e, q2, r)
            | none => none := rfl
    rw [hstep, if_neg (by rw [h c (List.mem_cons_self c cs)]; exact Bool.noConfusion)]
    cases ht : tryExtQuote cs with
    | some res =>
      obtain ⟨e, q2, r⟩ := res
      obtain ⟨heq, _, hq2⟩ := tryExtQuote_sound ht
      have : isQuote q2 = false := by
        refine h q2 ?_
        rw [heq]
        simp
      rw [this] at hq2
      exact Bool.noConfusion hq2
    | none =>
      rw [ih (fun z hz => h z (List.mem_cons_of_mem c hz))]

theorem rewriteChars_append_noquote : ∀ {a t : List Char},
    (∀ c ∈ a, isQuote c = false) →
    rewriteChars (a ++ t) = a ++ rewriteChars t := by
  intro a
  induction a with
  | nil => intro t _; rfl
  | cons c a2 ih =>
    intro t ha
    have hc : isQuote c = false := ha c (List.mem_cons_self c a2)
    rw [List.cons_append, rewriteChars_cons, if_neg (by rw [hc]; exact Bool.noConfusion)]
    rw [ih (fun z hz => ha z (List.mem_cons_of_mem c hz))]
    rw [List.cons_append]

theorem rewriteChars_noquote {t : List Char} (h : ∀ c ∈ t, isQuote c = false) :
    rewriteChars t = t := by
  have := rewriteChars_append_noquote (a := t) (t := []) h
  rw [List.append_nil, rewriteChars_nil, List.append_nil] at this
  exact this

theorem hasQuotedOldExt_iff (t : List Char) :
    HasQuotedOldExt t ↔ containsQuotedOldExt t = true := by
  constructor
  · rintro ⟨u, q, b, e, q2, v, rfl, hq, hb, hbq, he, hq2⟩
    induction u with
    | nil =>
      have hscan := @scanBody_exact b e q2 v hb hbq he hq2
      show ((isQuote q && (scanBody (b ++ e ++ q2 :: v)).isSome) ||
        containsQuotedOldExt (b ++ e ++ q2 :: v)) = true
      rw [hscan, hq]
      rfl
    | cons c u2 ih =>
      show ((isQuote c && (scanBody (u2 ++ q :: (b ++ e ++ q2 :: v))).isSome) ||
        containsQuotedOldExt (u2 ++ q :: (b ++ e ++ q2 :: v))) = true
      rw [ih]
      simp
  · intro h
    induction t with
    | nil => exact absurd h (by simp [containsQuotedOldExt])
    | cons c cs ih =>
      have hstep : containsQuotedOldExt (c :: cs) =
          ((isQuote c && (scanBody cs).isSome) || containsQuotedOldExt cs) := rfl
      rw [hstep, Bool.or_eq_true, Bool.and_eq_true] at h
      rcases h with ⟨hq, hscan⟩ | h2
      · obtain ⟨res, hres⟩ := Option.isSome_iff_exists.mp hscan
        obtain ⟨b, e, q2, r⟩ := res
        obtain ⟨hcs, hb, hbq, he, hq2⟩ := scanBody_sound hres
        exact ⟨[], c, b, e, q2, r, by rw [hcs]; rfl, hq, hb, hbq, he, hq2⟩
      · obtain ⟨u, q, b, e, q2, v, hcs, hq, hb, hbq, he, hq2⟩ := ih h2
        exact ⟨c :: u, q, b, e, q2, v, by rw [List.cons_append, hcs], hq, hb, hbq, he, hq2⟩

/-- A text with no quoted old-extension reference is left unchanged by
the substitution. -/
theorem rewriteChars_of_not_has : ∀ {t : List Char},
    ¬ HasQuotedOldExt t → rewriteChars t = t := by
  intro t
  induction t with
  | nil => intro _; rfl
  | cons c cs ih =>
    intro h
    have hcs : ¬ HasQuotedOldExt cs := by
      rintro ⟨u, q, b, e, q2, v, hcseq, hq, hb, hbq, he, hq2⟩
      exact h ⟨c :: u, q, b, e, q2, v, by rw [List.cons_append, hcseq], hq, hb, hbq, he, hq2⟩
    rw [rewriteChars_cons]
    by_cases hq : isQuote c
    · rw [if_pos hq]
      cases hs : scanBody cs with
      | some res =>
        obtain ⟨b, e, q2, r⟩ := res
        obtain ⟨hcseq, hb, hbq, he, hq2⟩ := scanBody_sound hs
        exact absurd ⟨[], c, b, e, q2, r, by rw [hcseq]; rfl, hq, hb, hbq, he, hq2⟩ h
      | none =>
        rw [ih hcs]
    · rw [if_neg hq, ih hcs]

theorem exists_first_quote : ∀ {t : List Char},
    ¬ t.countP (fun c => isQuote c) = 0 →
    ∃ a q rest, t = a ++ q :: rest ∧ (∀ c ∈ a, isQuote c = false) ∧ isQuote q = true ∧
      rest.countP (fun c => isQuote c) = t.countP (fun c => isQuote c) - 1 := by
  intro t
  induction t with
  | nil => intro h; exact absurd (by simp) h
  | cons c cs ih =>
    intro h
    by_cases hq : isQuote c = true
    · exact ⟨[], c, cs, rfl, by simp, hq, by rw [List.countP_cons, if_pos hq]; omega⟩
    · have hnc : ¬ cs.countP (fun c => isQuote c) = 0 := by
        intro h0
        apply h
        rw [List.countP_cons, if_neg hq, h0]
      obtain ⟨a, q, rest, rfl, ha, hqq, hcnt⟩ := ih hnc
      refine ⟨c :: a, q, rest, rfl, ?_, hqq, ?_⟩
      · intro z hz
        rcases List.mem_cons.mp hz with hz | hz
        · subst hz
          exact Bool.not_eq_true _ ▸ (by simpa using hq)
        · exact ha z hz
      · rw [hcnt, List.countP_cons, if_neg hq]
        omega

/-- A text with at most one quote character is a fixed point of the
substitution. -/
theorem rewriteChars_one_quote {a r : List Char} {q : Char}
    (ha : ∀ c ∈ a, isQuote c = false) (hr : ∀ c ∈ r, isQuote c = false) :
    rewriteChars (a ++ q :: r) = a ++ q :: r := by
  rw [rewriteChars_append_noquote ha, rewriteChars_cons]
  by_cases hq : isQuote q
  · rw [if_pos hq, scanBody_none_of_noquote hr, rewriteChars_noquote hr]
  · rw [if_neg hq, rewriteChars_noquote hr]

theorem webpData_no_quote : ∀ c ∈ webpData, isQuote c = false := by decide

/-- The rewritten body `B ++ ".webp"` never ends in an old extension:
the old extensions end in `g`, while `".webp"` ends in `p`. -/
theorem scanBody_none_after_webp {B s : List Char} {q2 : Char}
    (hBq : ∀ c ∈ B, isQuote c = false) (hs : ∀ c ∈ s, isQuote c = false)
    (hq2 : isQuote q2 = true) :
    scanBody (B ++ webpData ++ q2 :: s) = none := by
  cases hscan : scanBody (B ++ webpData ++ q2 :: s) with
  | none => rfl
  | some res =>
    obtain ⟨B2, E2, c3, r3⟩ := res
    obtain ⟨heq, hB2, hB2q, hE2, hc3⟩ := scanBody_sound hscan
    have hBWq : ∀ c ∈ B ++ webpData, isQuote c = false := by
      intro z hz
      rcases List.mem_append.mp hz with hz | hz
      · exact hBq z hz
      · exact webpData_no_quote z hz
    have hB2E2q : ∀ c ∈ B2 ++ E2, isQuote c = false := by
      intro z hz
      rcases List.mem_append.mp hz with hz | hz
      · exact hB2q z hz
      · exact extsData_no_quote hE2 z hz
    obtain ⟨hsplit, -, -⟩ := split_at_quote heq hBWq hB2E2q hq2 hc3
    have hlastP : (B ++ webpData).getLast? = some 'p' := by
      rw [List.getLast?_append]
      have hw : webpData.getLast? = some 'p' := by decide
      rw [hw]
      rfl
    obtain ⟨x, hx⟩ := Option.isSome_iff_exists.mp (List.getLast?_isSome.mpr (extsData_ne_nil hE2))
    have hlast2 : (B2 ++ E2).getLast? = some x := by
      rw [List.getLast?_append, hx]
      rfl
    rw [hsplit, hlast2] at hlastP
    have hxp : x = 'p' := Option.some.inj hlastP
    have hg := extsData_last_g hE2
    rw [List.getLast?_map, hx, hxp] at hg
    exact absurd hg (by decide)

/-! ### The claims -/

theorem runMain_eq (fs0 : FS) (encode : List Char → Option (List Char)) (tnew : Nat) :
    runMain fs0 encode tnew =
      if find_images fs0 = [] then ([], .ok ⟨fs0, [], 0, 0, true⟩)
      else
        match runLoop encode tnew ⟨fs0, 0, 0, [], []⟩ (find_images fs0) with
        | (st, some e) => (st.trace, .error e)
        | (st, none) =>
            (st.trace,
             .ok ⟨if find_html_files st.fs ≠ [] ∧ st.renamed ≠ [] then
                    patch_html_files st.fs (find_html_files st.fs) st.renamed tnew
                  else st.fs,
                  st.renamed, st.total_before, st.total_after, false⟩) := rfl

/-- C9: if the image enumeration yields zero qualifying images, `main`
reports "nothing to do" and stops as terminal success: the filesystem is
returned unchanged, the trace is empty (no file is backed up,
transcoded, deleted, or rewritten), and the result is marked as the
nothing-to-do success. -/
theorem C9_nothing_to_do (fs : FS) (encode : List Char → Option (List Char)) (tnew : Nat)
    (h : find_images fs = []) :
    runMain fs encode tnew = ([], Except.ok ⟨fs, [], 0, 0, true⟩) := by
  rw [runMain_eq, if_pos h]

theorem C9_witness :
    runMain [(["index.html"], ⟨['x'], 4⟩)] (fun _ => none) 0 =
      ([], Except.ok ⟨[(["index.html"], ⟨['x'], 4⟩)], [], 0, 0, true⟩) :=
  C9_nothing_to_do [(["index.html"], ⟨['x'], 4⟩)] (fun _ => none) 0 (by decide)

/-- C7: the archive step is idempotent — running `backup` a second time
on the same source leaves the filesystem (hence the first backup's bytes
and timestamp) exactly as after the first run; and when no backup
existed, the first run copies the source's record, preserving content
and modification time (`copy2`). -/
theorem C7_backup_idempotent (fs : FS) (src : FsPath) :
    backup (backup fs src) src = backup fs src ∧
    (fsLookup fs (BACKUP_DIR :: src) = none → ∀ f, fsLookup fs src = some f →
      fsLookup (backup fs src) (BACKUP_DIR :: src) = some f) := by
  constructor
  · by_cases hs : (fsLookup fs (BACKUP_DIR :: src)).isSome = true
    · have h1 : backup fs src = fs := by rw [backup_eq, if_pos hs]
      rw [h1]
      exact h1
    · cases hsrc : fsLookup fs src with
      | some f =>
        have h1 : backup fs src = fsInsert fs (BACKUP_DIR :: src) f := by
          rw [backup_eq, if_neg hs]
          simp only [hsrc]
        rw [h1]
        rw [backup_eq]
        rw [if_pos (by rw [fsLookup_insert, if_pos rfl]; rfl)]
      | none =>
        have h1 : backup fs src = fs := by
          rw [backup_eq, if_neg hs]
          simp only [hsrc]
        rw [h1]
        exact h1
  · intro hnone f hf
    exact backup_lookup_self_of_none hnone hf

theorem C7_witness :
    backup (backup [(["a.jpg"], ⟨['a'], 3⟩)] ["a.jpg"]) ["a.jpg"]
        = backup [(["a.jpg"], ⟨['a'], 3⟩)] ["a.jpg"] ∧
    fsLookup (backup [(["a.jpg"], ⟨['a'], 3⟩)] ["a.jpg"]) (BACKUP_DIR :: ["a.jpg"])
        = some ⟨['a'], 3⟩ :=
  ⟨(C7_backup_idempotent [(["a.jpg"], ⟨['a'], 3⟩)] ["a.jpg"]).1,
   (C7_backup_idempotent [(["a.jpg"], ⟨['a'], 3⟩)] ["a.jpg"]).2 (by decide) ⟨['a'], 3⟩ (by decide)⟩

/-- C5: the output of the reference rewriter does not depend on the
rename map: for every filesystem, markup file list and any two rename
maps, patching yields the same result, because the substitution is
extension-class-based and never consults the map. -/
theorem C5_rewrite_ignores_rename_map (fs : FS) (html_files : List FsPath)
    (renamed1 renamed2 : List (String × String)) (tnew : Nat) :
    patch_html_files fs html_files renamed1 tnew =
      patch_html_files fs html_files renamed2 tnew := rfl

/-- C2: a path with a component in the exclusion set (`backup_images`,
`.git`, `node_modules`, `__pycache__`) is never yielded by the image
locator or the markup locator, regardless of extension; consequently it
is never deleted by a run (no unlink event concerns it) and never
rewritten by the markup patcher. -/
theorem C2_exclusion_invariant (fs : FS) (encode : List Char → Option (List Char))
    (tnew : Nat) (p : FsPath) (hex : ∃ part ∈ p, part ∈ SKIP_DIRS) :
    p ∉ find_images fs ∧ p ∉ find_html_files fs ∧
    (∀ ent ∈ (runMain fs encode tnew).1, ent.2 ≠ Ev.evUnlink p) ∧
    (∀ fs' : FS, ∀ renamed : List (String × String), ∀ t : Nat,
      fsLookup (patch_html_files fs' (find_html_files fs') renamed t) p = fsLookup fs' p) := by
  have hskip : should_skip p = true := by
    obtain ⟨part, hpart, hmem⟩ := hex
    unfold should_skip
    rw [List.any_eq_true]
    exact ⟨part, hpart, by rw [decide_eq_true_eq]; exact hmem⟩
  have h1 : p ∉ find_images fs := by
    intro hmem
    have := (mem_find_images.mp hmem).2.2
    rw [hskip] at this
    exact Bool.noConfusion this
  have h2 : ∀ fsx : FS, p ∉ find_html_files fsx := by
    intro fsx hmem
    have := (mem_find_html_files.mp hmem).2.2
    rw [hskip] at this
    exact Bool.noConfusion this
  refine ⟨h1, h2 fs, ?_, ?_⟩
  · intro ent hent hev
    rw [runMain_eq] at hent
    by_cases himg : find_images fs = []
    · rw [if_pos himg] at hent
      exact absurd hent (List.not_mem_nil ent)
    · rw [if_neg himg] at hent
      rcases hloop : runLoop encode tnew ⟨fs, 0, 0, [], []⟩ (find_images fs) with ⟨stf, e?⟩
      rw [hloop] at hent
      have hmem : ent ∈ stf.trace := by
        cases e? with
        | none => exact hent
        | some err => exact hent
      have := runLoop_trace_src ent (by rw [hloop]; exact hmem)
      rcases this with hnil | hsrc
      · exact absurd hnil (List.not_mem_nil ent)
      · rw [hev] at hsrc
        exact h1 hsrc
  · intro fs' renamed t
    refine patch_lookup_not_mem ?_
    intro h hh hph
    rw [← hph] at hh
    exact h2 fs' hh

theorem C2_witness :
    (["backup_images", "x.jpg"] : FsPath) ∉ find_images [(["backup_images", "x.jpg"], ⟨['a'], 0⟩)] ∧
    (["backup_images", "x.jpg"] : FsPath) ∉ find_html_files [(["backup_images", "x.jpg"], ⟨['a'], 0⟩)] ∧
    (∀ ent ∈ (runMain [(["backup_images", "x.jpg"], ⟨['a'], 0⟩)] (fun _ => none) 0).1,
      ent.2 ≠ Ev.evUnlink ["backup_images", "x.jpg"]) ∧
    (∀ fs' : FS, ∀ renamed : List (String × String), ∀ t : Nat,
      fsLookup (patch_html_files fs' (find_html_files fs') renamed t) ["backup_images", "x.jpg"]
        = fsLookup fs' ["backup_images", "x.jpg"]) :=
  C2_exclusion_invariant [(["backup_images", "x.jpg"], ⟨['a'], 0⟩)] (fun _ => none) 0
    ["backup_images", "x.jpg"] (by decide)

/-- C1: for every deletion event of a run started on a filesystem with
no duplicate paths, the backup copy of the deleted original exists at
the moment of deletion; and — correcting the spec — the backup is only
guaranteed byte-identical to the original when no file already occupied
the backup path before the run, because `backup` skips the copy when
the destination exists. -/
theorem C1_backup_before_delete (fs0 : FS) (encode : List Char → Option (List Char))
    (tnew : Nat) (hnd : (fs0.map Prod.fst).Nodup) :
    ∀ ent ∈ (runMain fs0 encode tnew).1, ∀ p, ent.2 = Ev.evUnlink p →
      (fsLookup ent.1 (BACKUP_DIR :: p)).isSome = true ∧
      (fsLookup fs0 (BACKUP_DIR :: p) = none →
        (fsLookup ent.1 (BACKUP_DIR :: p)).map File.data =
          (fsLookup ent.1 p).map File.data) := by
  intro ent hent p hev
  rw [runMain_eq] at hent
  by_cases himg : find_images fs0 = []
  · rw [if_pos himg] at hent
    exact absurd hent (List.not_mem_nil ent)
  · rw [if_neg himg] at hent
    rcases hloop : runLoop encode tnew ⟨fs0, 0, 0, [], []⟩ (find_images fs0) with ⟨stf, e?⟩
    rw [hloop] at hent
    have hmem : ent ∈ stf.trace := by
      cases e? with
      | none => exact hent
      | some err => exact hent
    exact @runLoop_backup_inv fs0 encode tnew (find_images fs0) ⟨fs0, 0, 0, [], []⟩
      (fun q hq => ⟨(mem_find_images.mp hq).2.2, (mem_find_images.mp hq).2.1⟩)
      (find_images_nodup hnd)
      (fun q hq hnone => hnone)
      (fun e he => absurd he (List.not_mem_nil e))
      ent (by rw [hloop]; exact hmem) p hev

theorem C1_witness :
    (fsLookup [(["p.webp"], (⟨['z'], 3⟩ : File)), (["backup_images", "p.jpg"], (⟨['a'], 7⟩ : File)), (["p.jpg"], (⟨['a'], 7⟩ : File))] (BACKUP_DIR :: ["p.jpg"])).isSome = true ∧
    (fsLookup ([(["p.jpg"], ⟨['a'], 7⟩)] : FS) (BACKUP_DIR :: ["p.jpg"]) = none →
      (fsLookup [(["p.webp"], (⟨['z'], 3⟩ : File)), (["backup_images", "p.jpg"], (⟨['a'], 7⟩ : File)), (["p.jpg"], (⟨['a'], 7⟩ : File))] (BACKUP_DIR :: ["p.jpg"])).map File.data =
        (fsLookup [(["p.webp"], (⟨['z'], 3⟩ : File)), (["backup_images", "p.jpg"], (⟨['a'], 7⟩ : File)), (["p.jpg"], (⟨['a'], 7⟩ : File))] ["p.jpg"]).map File.data) :=
  C1_backup_before_delete [(["p.jpg"], ⟨['a'], 7⟩)] (fun _ => some ['z']) 3 (by decide)
    ([(["p.webp"], ⟨['z'], 3⟩), (["backup_images", "p.jpg"], ⟨['a'], 7⟩), (["p.jpg"], ⟨['a'], 7⟩)], Ev.evUnlink ["p.jpg"])
    (by decide) ["p.jpg"] rfl

theorem C1_counterexample :
    ((runMain [(["a.jpg"], ⟨['a'], 0⟩), (["backup_images", "a.jpg"], ⟨['b'], 0⟩)]
        (fun _ => some ['c']) 0).1.all fun ent =>
      match ent.2 with
      | Ev.evUnlink p =>
          (fsLookup ent.1 (BACKUP_DIR :: p)).map File.data ==
            (fsLookup ent.1 p).map File.data
      | _ => true) = false := by decide

theorem C4_counterexample :
    rewriteChars ("\"a.jpg'".data) ≠ rewriteMatchingSpec ("\"a.jpg'".data) := by decide

/-- C4: fidelity of the reference rewriter — correcting the spec's claim
that the closing quote must match the opening one: for any
quote-character delimiters (matching or not), a quoted occurrence of a
name with an old image extension has exactly the extension replaced by
`.webp`, both delimiters and the name kept, and the remainder rewritten
recursively from after the closing quote. -/
theorem C4_rewrite_fidelity (pre : List Char) (q : Char) (body ext : List Char) (q' : Char)
    (rest : List Char)
    (hpre : ∀ c ∈ pre, isQuote c = false) (hq : isQuote q = true)
    (hbody : body ≠ []) (hbodyq : ∀ c ∈ body, isQuote c = false)
    (hext : ext.map Char.toLower ∈ extsData) (hq' : isQuote q' = true) :
    rewriteChars (pre ++ q :: (body ++ ext ++ q' :: rest)) =
      pre ++ q :: (body ++ webpData ++ q' :: rewriteChars rest) := by
  rw [rewriteChars_append_noquote hpre, rewriteChars_cons, if_pos hq,
    scanBody_exact hbody hbodyq hext hq']

theorem C4_witness :
    rewriteChars ("<img src=".data ++ '"' :: ("pics/a".data ++ ".JPG".data ++ '"' :: ">".data)) =
      "<img src=".data ++ '"' :: ("pics/a".data ++ webpData ++ '"' :: rewriteChars ">".data) :=
  C4_rewrite_fidelity "<img src=".data '"' "pics/a".data ".JPG".data '"' ">".data
    (by decide) (by decide) (by decide) (by decide) (by decide) (by decide)

theorem C6_counterexample :
    (runMain [(["z.png"], ⟨[], 0⟩)] (fun _ => some ['c']) 0).2 =
      Except.error RunError.zeroDiv := rfl

/-- C6: the run never aborts on transcode failures — the exception
handler around the conversion catches them and the loop continues to
termination — but, correcting the spec, only under the proviso that
every enumerated image is nonempty: a zero-byte original makes the
savings computation (which sits outside the handler) divide by zero and
abort the run. Under no-duplicate paths and all-nonempty images the run
always finishes with a success result, whatever the codec does. -/
theorem C6_run_completes (fs0 : FS) (encode : List Char → Option (List Char)) (tnew : Nat)
    (hnd : (fs0.map Prod.fst).Nodup) (hsz : sizes_ok fs0 = true) :
    ∃ r, (runMain fs0 encode tnew).2 = Except.ok r := by
  rw [runMain_eq]
  by_cases himg : find_images fs0 = []
  · rw [if_pos himg]
    exact ⟨_, rfl⟩
  · rw [if_neg himg]
    rcases hloop : runLoop encode tnew ⟨fs0, 0, 0, [], []⟩ (find_images fs0) with ⟨stf, e?⟩
    have h2 : (runLoop encode tnew ⟨fs0, 0, 0, [], []⟩ (find_images fs0)).2 = none := by
      refine (@runLoop_master fs0 encode tnew (find_images fs0) ⟨fs0, 0, 0, [], []⟩ ?_ (find_images_nodup hnd)).1
      intro p hp
      obtain ⟨⟨f, hmem⟩, himgp, hskip⟩ := mem_find_images.mp hp
      have hlp : fsLookup fs0 p = some f := fsLookup_some_of_mem_nodup hnd hmem
      refine ⟨hskip, himgp, rfl, f, hlp, ?_⟩
      have hall := List.all_eq_true.mp hsz p hp
      simp only [hlp] at hall
      intro hc
      rw [List.length_eq_zero] at hc
      rw [hc] at hall
      exact absurd hall (by decide)
    rw [hloop] at h2
    have he : e? = none := h2
    subst he
    exact ⟨_, rfl⟩

theorem C6_witness :
    ∃ r, (runMain [(["a.jpg"], ⟨['a'], 0⟩), (["b.png"], ⟨['b'], 0⟩)]
        (fun d => if d = ['a'] then none else some ['z']) 0).2 = Except.ok r :=
  C6_run_completes [(["a.jpg"], ⟨['a'], 0⟩), (["b.png"], ⟨['b'], 0⟩)]
    (fun d => if d = ['a'] then none else some ['z']) 0 (by decide) (by decide)

/-- C8: a markup file whose text contains no quote-delimited occurrence
of an old image extension is left untouched: the rewriter is the
identity on its text, and after patching the file's record (bytes and
timestamp) is unchanged, because the patcher only writes when the
rewritten text differs. -/
theorem C8_no_spurious_write (fs : FS) (html_files : List FsPath)
    (renamed : List (String × String)) (tnew : Nat) (p : FsPath) (f : File)
    (hf : fsLookup fs p = some f) (hno : ¬ HasQuotedOldExt f.data) :
    rewriteChars f.data = f.data ∧
    fsLookup (patch_html_files fs html_files renamed tnew) p = some f :=
  ⟨rewriteChars_of_not_has hno, patch_lookup_fixed hf (rewriteChars_of_not_has hno)⟩

theorem C8_witness :
    rewriteChars ("<p>hello</p>".data) = "<p>hello</p>".data ∧
    fsLookup (patch_html_files [(["index.html"], ⟨"<p>hello</p>".data, 5⟩)]
        [["index.html"]] [] 9) ["index.html"] = some ⟨"<p>hello</p>".data, 5⟩ :=
  C8_no_spurious_write [(["index.html"], ⟨"<p>hello</p>".data, 5⟩)] [["index.html"]] [] 9
    ["index.html"] ⟨"<p>hello</p>".data, 5⟩ (by decide)
    (fun h => absurd ((hasQuotedOldExt_iff _).mp h) (by decide))

theorem noquote_of_countP_zero {l : List Char}
    (h : l.countP (fun c => isQuote c) = 0) : ∀ c ∈ l, isQuote c = false := by
  intro c hc
  have hnq := List.countP_eq_zero.mp h c hc
  simp only [Bool.not_eq_true] at hnq
  exact hnq

theorem C10_counterexample :
    rewriteChars (rewriteChars ("'a.jpg'b.jpg'".data)) ≠
      rewriteChars ("'a.jpg'b.jpg'".data) := by decide

/-- C10: the rewriter is NOT idempotent in general — correcting the
spec: because the substitution consumes the closing quote, a second
pass can pair that quote's neighbour with a later quote and rewrite
text a single pass leaves alone. Idempotence does hold whenever the
text contains at most two quote characters, which covers any single
quoted occurrence. -/
theorem C10_idempotent_le_two (t : List Char)
    (h : t.countP (fun c => isQuote c) ≤ 2) :
    rewriteChars (rewriteChars t) = rewriteChars t := by
  by_cases h0 : t.countP (fun c => isQuote c) = 0
  · have hnq := noquote_of_countP_zero h0
    rw [rewriteChars_noquote hnq, rewriteChars_noquote hnq]
  · obtain ⟨a, q, r1, ht, ha, hq, hcnt⟩ := exists_first_quote h0
    by_cases h1 : r1.countP (fun c => isQuote c) = 0
    · have hr1 := noquote_of_countP_zero h1
      have hfix : rewriteChars (a ++ q :: r1) = a ++ q :: r1 :=
        rewriteChars_one_quote ha hr1
      rw [ht, hfix]
      exact hfix
    · obtain ⟨b, q2, s, hr1, hb, hq2, hcnt2⟩ := exists_first_quote h1
      have hs : ∀ c ∈ s, isQuote c = false := by
        refine noquote_of_countP_zero ?_
        omega
      cases hscan : scanBody r1 with
      | none =>
        have hfix : rewriteChars (a ++ q :: r1) = a ++ q :: r1 := by
          rw [rewriteChars_append_noquote ha, rewriteChars_cons, if_pos hq, hscan]
          rw [hr1, rewriteChars_one_quote hb hs]
        rw [ht, hfix]
        exact hfix
      | some res =>
        obtain ⟨B, E, c2, r2⟩ := res
        obtain ⟨heq, hBne, hBq, hE, hc2⟩ := scanBody_sound hscan
        have hBEq : ∀ c ∈ B ++ E, isQuote c = false := by
          intro c hc
          rcases List.mem_append.mp hc with hc | hc
          · exact hBq c hc
          · exact extsData_no_quote hE c hc
        obtain ⟨hx, hcq, hy⟩ := split_at_quote (heq.symm.trans hr1) hBEq hb hc2 hq2
        have hr2q : ∀ c ∈ r2, isQuote c = false := fun c hc => hs c (hy ▸ hc)
        have hBWq : ∀ c ∈ B ++ webpData, isQuote c = false := by
          intro c hc
          rcases List.mem_append.mp hc with hc | hc
          · exact hBq c hc
          · exact webpData_no_quote c hc
        have hfirst : rewriteChars (a ++ q :: r1) =
            a ++ q :: (B ++ webpData ++ c2 :: r2) := by
          rw [rewriteChars_append_noquote ha, rewriteChars_cons, if_pos hq, hscan]
          simp only [rewriteChars_noquote hr2q]
        have hsecond : rewriteChars (a ++ q :: (B ++ webpData ++ c2 :: r2)) =
            a ++ q :: (B ++ webpData ++ c2 :: r2) := by
          rw [rewriteChars_append_noquote ha, rewriteChars_cons, if_pos hq,
            scanBody_none_after_webp hBq hr2q hc2]
          simp only [rewriteChars_append_noquote hBWq, rewriteChars_cons, hc2, if_true,
            scanBody_none_of_noquote hr2q, rewriteChars_noquote hr2q]
        rw [ht, hfirst]
        exact hsecond

theorem C10_witness :
    rewriteChars (rewriteChars ("<img src=\"pics/a.JPG\">".data)) =
      rewriteChars ("<img src=\"pics/a.JPG\">".data) :=
  C10_idempotent_le_two ("<img src=\"pics/a.JPG\">".data) (by decide)

/-- C3: failure isolation — when the codec fails on one image, the
handler catches it and skips to the next image: the run still completes
successfully; the failed image's original survives with its backup made
and no rename record (it is excluded from the success list, hence from
the rename map and the aggregate statistics, which reflect exactly the
successful conversions); every successfully converted image is backed
up, its converted file present, and its original deleted. -/
theorem C3_failure_isolation (fs0 : FS) (encode : List Char → Option (List Char)) (tnew : Nat)
    (hnd : (fs0.map Prod.fst).Nodup) (hsz : sizes_ok fs0 = true)
    (src : FsPath) (f : File) (hsrc : src ∈ find_images fs0)
    (hf : fsLookup fs0 src = some f) (hfail : encode f.data = none) :
    ∃ r, (runMain fs0 encode tnew).2 = Except.ok r ∧
      fsLookup r.fs src = some f ∧
      (fsLookup r.fs (BACKUP_DIR :: src)).isSome = true ∧
      src ∉ succImgs fs0 encode (find_images fs0) ∧
      r.renamed = (succImgs fs0 encode (find_images fs0)).map
        (fun p => (relStr p, relStr (with_suffix p ".webp"))) ∧
      r.total_before = sizesBefore fs0 (succImgs fs0 encode (find_images fs0)) ∧
      r.total_after = sizesAfter fs0 encode (succImgs fs0 encode (find_images fs0)) ∧
      (∀ q ∈ find_images fs0, ∀ g, fsLookup fs0 q = some g →
        (encode g.data).isSome = true →
          fsLookup r.fs q = none ∧
          (fsLookup r.fs (with_suffix q ".webp")).isSome = true ∧
          (fsLookup r.fs (BACKUP_DIR :: q)).isSome = true) := by
  have himg : find_images fs0 ≠ [] := by
    intro hc
    rw [hc] at hsrc
    exact List.not_mem_nil src hsrc
  have hpend : ∀ p ∈ find_images fs0, should_skip p = false ∧ is_image_path p = true ∧
      fsLookup (⟨fs0, 0, 0, [], []⟩ : LoopSt).fs p = fsLookup fs0 p ∧
      ∃ g, fsLookup fs0 p = some g ∧ g.data.length ≠ 0 := by
    intro p hp
    obtain ⟨⟨g, hmem⟩, himgp, hskip⟩ := mem_find_images.mp hp
    have hlp : fsLookup fs0 p = some g := fsLookup_some_of_mem_nodup hnd hmem
    refine ⟨hskip, himgp, rfl, g, hlp, ?_⟩
    have hall := List.all_eq_true.mp hsz p hp
    simp only [hlp] at hall
    intro hc
    rw [List.length_eq_zero] at hc
    rw [hc] at hall
    exact absurd hall (by decide)
  have master := @runLoop_master fs0 encode tnew (find_images fs0) ⟨fs0, 0, 0, [], []⟩ hpend (find_images_nodup hnd)
  rcases hloop : runLoop encode tnew ⟨fs0, 0, 0, [], []⟩ (find_images fs0) with ⟨stf, e?⟩
  rw [hloop] at master
  obtain ⟨m1, m2, m3, m4, m5, m6, m7⟩ := master
  have he : e? = none := m1
  subst he
  have hnot : src ∉ succImgs fs0 encode (find_images fs0) := by
    intro hmem
    have hp := (List.mem_filter.mp hmem).2
    simp only [hf, hfail] at hp
    exact absurd hp (by decide)
  have hsrcfs : fsLookup stf.fs src = some f := (m6 src hsrc f hf).2 hfail
  have himgsrc : is_image_path src = true := (mem_find_images.mp hsrc).2.1
  have hneq : ∀ p : FsPath, is_image_path p = true →
      ∀ h ∈ find_html_files stf.fs, p ≠ h := by
    intro p hpimg h hh hph
    rw [hph] at hpimg
    rw [html_not_image (mem_find_html_files.mp hh).2.1] at hpimg
    exact Bool.noConfusion hpimg
  rw [runMain_eq, if_neg himg, hloop]
  refine ⟨_, rfl, ?_, ?_, hnot, m2.trans (List.nil_append _), m3.trans (Nat.zero_add _), m4.trans (Nat.zero_add _), ?_⟩
  · show fsLookup (if find_html_files stf.fs ≠ [] ∧ stf.renamed ≠ [] then patch_html_files stf.fs (find_html_files stf.fs) stf.renamed tnew else stf.fs) src = some f
    by_cases hif : find_html_files stf.fs ≠ [] ∧ stf.renamed ≠ []
    · rw [if_pos hif, patch_lookup_not_mem (hneq src himgsrc)]
      exact hsrcfs
    · rw [if_neg hif]
      exact hsrcfs
  · show (fsLookup (if find_html_files stf.fs ≠ [] ∧ stf.renamed ≠ [] then patch_html_files stf.fs (find_html_files stf.fs) stf.renamed tnew else stf.fs) (BACKUP_DIR :: src)).isSome = true
    by_cases hif : find_html_files stf.fs ≠ [] ∧ stf.renamed ≠ []
    · rw [if_pos hif]
      exact patch_isSome_mono (m5 src hsrc)
    · rw [if_neg hif]
      exact m5 src hsrc
  · intro q hq g hg henc
    have hdel : fsLookup stf.fs q = none := ((m6 q hq g hg).1 henc).1
    have hwebp : (fsLookup stf.fs (with_suffix q ".webp")).isSome = true := ((m6 q hq g hg).1 henc).2
    have hback : (fsLookup stf.fs (BACKUP_DIR :: q)).isSome = true := m5 q hq
    show fsLookup (if find_html_files stf.fs ≠ [] ∧ stf.renamed ≠ [] then patch_html_files stf.fs (find_html_files stf.fs) stf.renamed tnew else stf.fs) q = none ∧ (fsLookup (if find_html_files stf.fs ≠ [] ∧ stf.renamed ≠ [] then patch_html_files stf.fs (find_html_files stf.fs) stf.renamed tnew else stf.fs) (with_suffix q ".webp")).isSome = true ∧ (fsLookup (if find_html_files stf.fs ≠ [] ∧ stf.renamed ≠ [] then patch_html_files stf.fs (find_html_files stf.fs) stf.renamed tnew else stf.fs) (BACKUP_DIR :: q)).isSome = true
    by_cases hif : find_html_files stf.fs ≠ [] ∧ stf.renamed ≠ []
    · rw [if_pos hif]
      exact ⟨patch_none_mono hdel, patch_isSome_mono hwebp, patch_isSome_mono hback⟩
    · rw [if_neg hif]
      exact ⟨hdel, hwebp, hback⟩

theorem C3_witness :
    ∃ r, (runMain [(["a.jpg"], ⟨['a'], 1⟩), (["b.png"], ⟨['b'], 1⟩)] (fun d => if d = ['a'] then none else some ['z']) 0).2 = Except.ok r ∧
      fsLookup r.fs ["a.jpg"] = some ⟨['a'], 1⟩ ∧
      (fsLookup r.fs (BACKUP_DIR :: ["a.jpg"])).isSome = true ∧
      (["a.jpg"] : FsPath) ∉ succImgs [(["a.jpg"], ⟨['a'], 1⟩), (["b.png"], ⟨['b'], 1⟩)] (fun d => if d = ['a'] then none else some ['z']) (find_images [(["a.jpg"], ⟨['a'], 1⟩), (["b.png"], ⟨['b'], 1⟩)]) ∧
      r.renamed = (succImgs [(["a.jpg"], ⟨['a'], 1⟩), (["b.png"], ⟨['b'], 1⟩)] (fun d => if d = ['a'] then none else some ['z']) (find_images [(["a.jpg"], ⟨['a'], 1⟩), (["b.png"], ⟨['b'], 1⟩)])).map (fun p => (relStr p, relStr (with_suffix p ".webp"))) ∧
      r.total_before = sizesBefore [(["a.jpg"], ⟨['a'], 1⟩), (["b.png"], ⟨['b'], 1⟩)] (succImgs [(["a.jpg"], ⟨['a'], 1⟩), (["b.png"], ⟨['b'], 1⟩)] (fun d => if d = ['a'] then none else some ['z']) (find_images [(["a.jpg"], ⟨['a'], 1⟩), (["b.png"], ⟨['b'], 1⟩)])) ∧
      r.total_after = sizesAfter [(["a.jpg"], ⟨['a'], 1⟩), (["b.png"], ⟨['b'], 1⟩)] (fun d => if d = ['a'] then none else some ['z']) (succImgs [(["a.jpg"], ⟨['a'], 1⟩), (["b.png"], ⟨['b'], 1⟩)] (fun d => if d = ['a'] then none else some ['z']) (find_images [(["a.jpg"], ⟨['a'], 1⟩), (["b.png"], ⟨['b'], 1⟩)])) ∧
      (∀ q ∈ find_images [(["a.jpg"], ⟨['a'], 1⟩), (["b.png"], ⟨['b'], 1⟩)], ∀ g, fsLookup [(["a.jpg"], ⟨['a'], 1⟩), (["b.png"], ⟨['b'], 1⟩)] q = some g →
        ((fun d => if d = ['a'] then none else some ['z']) g.data).isSome = true →
          fsLookup r.fs q = none ∧
          (fsLookup r.fs (with_suffix q ".webp")).isSome = true ∧
          (fsLookup r.fs (BACKUP_DIR :: q)).isSome = true) :=
  C3_failure_isolation [(["a.jpg"], ⟨['a'], 1⟩), (["b.png"], ⟨['b'], 1⟩)]
    (fun d => if d = ['a'] then none else some ['z']) 0 (by decide) (by decide)
    ["a.jpg"] ⟨['a'], 1⟩ (by decide) (by decide) (by decide)
